import Mathlib

/-!
Verification of the gargle command-line parsing library.

This development shallowly embeds the parsing core of the repository:
the token scanner (tokenizer, file with Next/Peek/decodeShort over the
token kinds EOF/Verbatim/Long/Short/Value/Assigned/Remainder), the
value model (values.go and the Value / BooleanValue / AggregateValue /
defaultValue declarations), the parser/resolver (newParser, setContext,
Parse, parseFlagValue) and the value-application phase (Command.Parse,
invokePreActions, setValues, applyDefault).

The repository contains several revisions of the parsing core.  The
embedding follows the most recent coherent revision, the one exercised
by the newest test file (TestParseFlags/TestParseArgs/TestParseCommands/
TestParseNilValue/TestParseBoolValue): the tokenizer with an explicit
verbatim parameter and assigned/remainder buffering, the parser built
around parseFlagValue, and the Command.Parse that runs pre-actions
before reporting a parse error and then calls setValues.

Modelling conventions:
- Go strings are modelled as lists of characters (Str); Go decodes the
  leading rune of a short-flag cluster, which corresponds to taking the
  head character of the list.
- Go distinguishes flags, args and commands by pointer identity (map
  keys, the seen set).  Each Flag/Arg/Command carries an id field that
  models its pointer.
- Go maps with string keys are modelled as association lists where a
  newly inserted key is placed at the head and lookup takes the first
  match, which reproduces the overwrite semantics of map insertion.
- Action and PreAction callbacks are arbitrary Go closures; a closure
  is modelled by the result it returns when invoked (none = success,
  some msg = error), and every invocation is recorded in a trace
  together with the context passed to it.
- Bound program variables are modelled by a store from entity ids to
  typed states; a Value's Set reads and writes its owner's slot.
-/

set_option synthInstance.maxSize 1024

namespace Gargle

/-- Str models a Go string as its list of characters (runes). -/
abbrev Str := List Char

instance exceptDecEq {ε α : Type} [DecidableEq ε] [DecidableEq α] :
    DecidableEq (Except ε α) := fun x y =>
  match x, y with
  | .ok a, .ok b =>
    if h : a = b then .isTrue (by rw [h]) else .isFalse (by simp [h])
  | .error a, .error b =>
    if h : a = b then .isTrue (by rw [h]) else .isFalse (by simp [h])
  | .ok _, .error _ => .isFalse (fun hc => Except.noConfusion hc)
  | .error _, .ok _ => .isFalse (fun hc => Except.noConfusion hc)

/-- Store of bound program variables, keyed by the owning entity's id. -/
inductive VState where
  | stBool (b : Bool)
  | stString (s : Str)
  | stStrings (l : List Str)
  | stInt (n : Int)
  | stIntSlice (l : List Int)
deriving DecidableEq, Repr

abbrev Store := List (Nat × VState)

/-- Errors returned by a Value's Set, abstracting the strconv error values.
Go reports the kind of the earliest offending character; when a string has
both an invalid digit and an out-of-range prefix the modelled kind may
differ, but an error is present in exactly the same cases. -/
inductive SetErr where
  | invalidSyntax
  | outOfRange
deriving DecidableEq, Repr

/-- Go strconv lower: c with the ASCII case bit set. -/
def lowerCh (c : Char) : Char := Char.ofNat (c.toNat ||| 32)

def isDecimalDigit (c : Char) : Bool := decide ('0' ≤ c) && decide (c ≤ '9')

def isHexLetter (c : Char) : Bool :=
  decide ('a' ≤ lowerCh c) && decide (lowerCh c ≤ 'f')

/-- Digit value of a character as in strconv's per-character switch:
decimal digits, then letters a..z (any letter is a candidate digit and is
rejected later when its value reaches the base). -/
def digitValue (c : Char) : Option Nat :=
  if isDecimalDigit c then some (c.toNat - '0'.toNat)
  else if decide ('a' ≤ lowerCh c) && decide (lowerCh c ≤ 'z') then
    some ((lowerCh c).toNat - 'a'.toNat + 10)
  else none

/-- The digit-consuming loop of strconv.ParseUint.  Accumulates the value
(unbounded; the range check happens afterwards) and whether an underscore
was seen.  Returns none on an invalid digit. -/
def parseDigitsLoop (base : Nat) (acc : Nat) (under : Bool) : List Char → Option (Nat × Bool)
  | [] => some (acc, under)
  | c :: rest =>
    if c = '_' then parseDigitsLoop base acc true rest
    else
      match digitValue c with
      | none => none
      | some d => if base ≤ d then none else parseDigitsLoop base (acc * base + d) under rest

/-- The underscore well-formedness loop of strconv's underscoreOK.
saw is the category of the previous character: 0x30 a digit, the
underscore itself, 0x5e for start-of-string, 0x21 for anything else. -/
def underscoreLoop (hex : Bool) (saw : Char) : List Char → Bool
  | [] => saw ≠ '_'
  | c :: rest =>
    if isDecimalDigit c || (hex && isHexLetter c) then underscoreLoop hex '0' rest
    else if c = '_' then
      if saw ≠ '0' then false else underscoreLoop hex '_' rest
    else if saw = '_' then false
    else underscoreLoop hex '!' rest

/-- strconv underscoreOK: underscores may appear only between digits (a
base prefix counting as a digit). -/
def underscoreOK (s : Str) : Bool :=
  let s1 : Str :=
    match s with
    | '-' :: r => r
    | '+' :: r => r
    | r => r
  match s1 with
  | '0' :: c :: r =>
    if lowerCh c = 'b' ∨ lowerCh c = 'o' ∨ lowerCh c = 'x' then
      underscoreLoop (lowerCh c = 'x') '0' r
    else underscoreLoop false '^' s1
  | _ => underscoreLoop false '^' s1

/-- strconv.ParseUint with base 0 and bitSize 64: detect the base from the
prefix (0b/0o/0x need at least one following character, a bare leading 0
selects octal), consume digits, validate underscores, check the range. -/
def goParseUint64 (s0 : Str) : Except SetErr Nat :=
  match s0 with
  | [] => .error .invalidSyntax
  | _ =>
    let det : Nat × List Char :=
      match s0 with
      | '0' :: c :: r =>
        if lowerCh c = 'b' ∧ r ≠ [] then (2, r)
        else if lowerCh c = 'o' ∧ r ≠ [] then (8, r)
        else if lowerCh c = 'x' ∧ r ≠ [] then (16, r)
        else (8, c :: r)
      | '0' :: r => (8, r)
      | _ => (10, s0)
    match parseDigitsLoop det.1 0 false det.2 with
    | none => .error .invalidSyntax
    | some (n, under) =>
      if under ∧ ¬ underscoreOK s0 then .error .invalidSyntax
      else if 2 ^ 64 ≤ n then .error .outOfRange
      else .ok n

/-- strconv.ParseInt with base 0 and bitSize 64 (strconv.IntSize on the
64-bit platforms the tests assume): strip the sign, parse the unsigned
part, apply the signed cutoff. -/
def goParseInt64 (s : Str) : Except SetErr Int :=
  match s with
  | [] => .error .invalidSyntax
  | _ =>
    let signed : Bool × Str :=
      match s with
      | '+' :: r => (false, r)
      | '-' :: r => (true, r)
      | r => (false, r)
    match goParseUint64 signed.2 with
    | .error e => .error e
    | .ok n =>
      if ¬ signed.1 ∧ 2 ^ 63 ≤ n then .error .outOfRange
      else if signed.1 ∧ 2 ^ 63 < n then .error .outOfRange
      else .ok (if signed.1 then -(n : Int) else (n : Int))

/-- strconv.ParseBool accepts exactly these forms. -/
def goParseBool (s : Str) : Option Bool :=
  if s = "1".data ∨ s = "t".data ∨ s = "T".data ∨ s = "true".data ∨
     s = "TRUE".data ∨ s = "True".data then some true
  else if s = "0".data ∨ s = "f".data ∨ s = "F".data ∨ s = "false".data ∨
     s = "FALSE".data ∨ s = "False".data then some false
  else none

/-- The concrete value types of values.go that the claims exercise. -/
inductive BaseValue where
  | vBool
  | vString
  | vStrings
  | vInt
  | vIntSlice
deriving DecidableEq, Repr

/-- A Value instance: its concrete backing type, whether it is the
defaultValue wrapper produced by WithDefault, and the wrapper's fallback
strings.  An unwrapped value has no defaults. -/
structure Value where
  base : BaseValue
  wrapped : Bool := false
  defaults : List Str := []
deriving DecidableEq, Repr

/-- IsBoolean(v Value): the type assertion to BooleanValue.  It fails for
a nil Value and also for the defaultValue wrapper, which does not forward
the optional interfaces. -/
def IsBoolean : Option Value → Bool
  | some v => !v.wrapped && v.base = .vBool
  | none => false

/-- IsAggregate(v Value): the type assertion to AggregateValue, failing
for nil and for the defaultValue wrapper exactly like IsBoolean. -/
def IsAggregate : Option Value → Bool
  | some v => !v.wrapped && (v.base = .vStrings || v.base = .vIntSlice)
  | none => false

/-- Set of each concrete value type in values.go.  Returns the error and
the updated state of the bound variable.  Each type parses its raw string
and assigns only on success; intSliceValue.Set is translated exactly as
written, ending in return nil so that a parse failure is not reported.
A state of the wrong shape cannot arise for a value bound to its own
variable; in that unreachable case the state is left unchanged. -/
def setBase : BaseValue → VState → Str → Option SetErr × VState
  | .vBool, st, s =>
    match goParseBool s with
    | some b => (none, .stBool b)
    | none => (some .invalidSyntax, st)
  | .vString, _, s => (none, .stString s)
  | .vStrings, st, s =>
    match st with
    | .stStrings l => (none, .stStrings (l ++ [s]))
    | _ => (none, st)
  | .vInt, st, s =>
    match goParseInt64 s with
    | .ok n => (none, .stInt n)
    | .error e => (some e, st)
  | .vIntSlice, st, s =>
    match goParseInt64 s with
    | .ok n =>
      match st with
      | .stIntSlice l => (none, .stIntSlice (l ++ [n]))
      | _ => (none, st)
    | .error _ => (none, st)

/-- Value.Set: the defaultValue wrapper forwards Set to its inner value,
so wrapping does not change Set behavior. -/
def Value.Set (v : Value) (st : VState) (s : Str) : Option SetErr × VState :=
  setBase v.base st s

/-- The loop body of applyDefault: Set once per fallback string, in
order, stopping at the first failure. -/
def applyDefaultList (b : BaseValue) : List Str → VState → Option SetErr × VState
  | [], st => (none, st)
  | d :: rest, st =>
    match setBase b st d with
    | (some e, st') => (some e, st')
    | (none, st') => applyDefaultList b rest st'

/-- applyDefault(v Value): the type assertion to defaultValue fails for a
nil Value and for unwrapped values, in which case nothing happens. -/
def applyDefault (v : Option Value) (st : VState) : Option SetErr × VState :=
  match v with
  | none => (none, st)
  | some val => if val.wrapped then applyDefaultList val.base val.defaults st else (none, st)

def storeGet (store : Store) (id : Nat) : VState :=
  match store.find? (fun p => p.1 = id) with
  | some p => p.2
  | none => .stString []

def storeSet (store : Store) (id : Nat) (v : VState) : Store :=
  store.map (fun p => if p.1 = id then (id, v) else p)

/-! The token scanner. -/

/-- tokenType of the scanner: EOF, the verbatim symbol, a long flag, a
short flag, a naked value, a value explicitly assigned to the previous
flag, and the remainder of a short-flag cluster (internal, never
returned from Next). -/
inductive TokenType where
  | tEOF
  | tVerbatim
  | tLong
  | tShort
  | tValue
  | tAssigned
  | tRemainder
deriving DecidableEq, Repr

structure Token where
  type : TokenType
  value : Str
deriving DecidableEq, Repr

/-- token.String(): long flags render with a double dash, short flags
with a single dash, everything else as its raw value. -/
def Token.str : Token → Str
  | ⟨.tLong, v⟩ => '-' :: '-' :: v
  | ⟨.tShort, v⟩ => '-' :: v
  | ⟨_, v⟩ => v

/-- Scanner state: the remaining raw argument strings and the one-token
buffer (the next field of the Go struct). -/
structure Tokenizer where
  args : List Str
  next : Option Token
deriving DecidableEq, Repr

def newTokenizer (args : List Str) : Tokenizer := { args := args, next := none }

/-- decodeShort: emit the first character (Go decodes the leading rune)
as a short flag and buffer any remaining characters as a remainder. -/
def decodeShort (t : Tokenizer) (arg : Str) : Token × Tokenizer :=
  match arg with
  | [] => (⟨.tShort, []⟩, t)
  | c :: rest =>
    if rest = [] then (⟨.tShort, [c]⟩, t)
    else (⟨.tShort, [c]⟩, { t with next := some ⟨.tRemainder, rest⟩ })

/-- strings.SplitN(s, eq, 2): the part before the first equals sign and,
when one is present, everything after it. -/
def splitEq : Str → Str × Option Str
  | [] => ([], none)
  | c :: r =>
    if c = '=' then ([], some r)
    else
      match splitEq r with
      | (pre, v) => (c :: pre, v)

/-- Lexical interpretation of one raw argument string popped from the
list (the second half of Next): forced-verbatim values, the bare double
dash, long flags with an optional joined value, short-flag clusters, the
bare dash placeholder, and plain values. -/
def nextFromArg (t : Tokenizer) (arg : Str) (verbatim : Bool) : Token × Tokenizer :=
  if verbatim then (⟨.tValue, arg⟩, t)
  else
    match arg with
    | '-' :: '-' :: body =>
      match body with
      | [] => (⟨.tVerbatim, ['-', '-']⟩, t)
      | _ :: _ =>
        match splitEq body with
        | (nm, some v) => (⟨.tLong, nm⟩, { t with next := some ⟨.tAssigned, v⟩ })
        | (nm, none) => (⟨.tLong, nm⟩, t)
    | '-' :: body =>
      match body with
      | [] => (⟨.tValue, arg⟩, t)
      | _ :: _ => decodeShort t body
    | _ => (⟨.tValue, arg⟩, t)

/-- Next: serve the buffered token first (reinterpreting a remainder as
an assigned value under verbatim, or as further short flags), otherwise
pop and scan the next raw argument. -/
def Tokenizer.Next (t : Tokenizer) (verbatim : Bool) : Token × Tokenizer :=
  match t.next with
  | some nx =>
    let t' := { t with next := none }
    if nx.type = .tRemainder then
      if verbatim then (⟨.tAssigned, nx.value⟩, t')
      else decodeShort t' nx.value
    else (nx, t')
  | none =>
    match t.args with
    | [] => (⟨.tEOF, []⟩, t)
    | arg :: rest => nextFromArg { t with args := rest } arg verbatim

/-- Peek: the buffered token, hidden when it is a remainder because that
is not a decoded token yet. -/
def Tokenizer.Peek (t : Tokenizer) : Option Token :=
  match t.next with
  | some nx => if nx.type = .tRemainder then none else some nx
  | none => none

/-! The command hierarchy.  Construction-time behavior (AddCommands,
AddFlags, AddArgs, panics on duplicate parents) is outside the parsing
core; trees are given directly.  Parent links are modelled by the
parser's context path. -/

/-- Flag: public fields of the head revision.  The id models the Go
pointer; preAction models the optional closure by its returned result. -/
structure Flag where
  id : Nat
  name : Str := []
  short : Option Char := none
  required : Bool := false
  preAction : Option (Option Str) := none
  value : Option Value := none
deriving DecidableEq, Repr

/-- Arg: public fields of the head revision. -/
structure Arg where
  id : Nat
  name : Str := []
  required : Bool := false
  preAction : Option (Option Str) := none
  value : Option Value := none
deriving DecidableEq, Repr

/-- Command: a node of the command tree.  action and preAction model the
optional Action closures by their returned results. -/
inductive Command where
  | mk (id : Nat) (name : Str) (preAction : Option (Option Str))
      (action : Option (Option Str)) (commands : List Command)
      (flags : List Flag) (args : List Arg)

def Command.id : Command → Nat
  | .mk i _ _ _ _ _ _ => i

def Command.name : Command → Str
  | .mk _ n _ _ _ _ _ => n

def Command.preAction : Command → Option (Option Str)
  | .mk _ _ p _ _ _ _ => p

def Command.action : Command → Option (Option Str)
  | .mk _ _ _ a _ _ _ => a

def Command.commands : Command → List Command
  | .mk _ _ _ _ cs _ _ => cs

def Command.flags : Command → List Flag
  | .mk _ _ _ _ _ fs _ => fs

def Command.args : Command → List Arg
  | .mk _ _ _ _ _ _ as_ => as_

/-- FullName: the parent chain is the context path, so the full name of
the current context is its names joined by spaces from the root down. -/
def FullName : List Command → Str
  | [] => []
  | [c] => c.name
  | c :: rest => c.name ++ ' ' :: FullName rest

/-! The parser/resolver. -/

/-- Errors of the parsing core.  Each constructor corresponds to one
formatted error of the source and carries the data interpolated into the
message; actionErr carries an error returned from a PreAction or Action
closure, and nilActionPanic models the runtime panic of calling a nil
Action function. -/
inductive GErr where
  | unknownFlag (name : Str)
  | notValidCommand (fullName : Str)
  | unexpectedArgument (value : Str)
  | requiresValue (flagStr : Str)
  | flagNotAcceptValue (value : Str) (flagStr : Str)
  | invalidValue (value : Str) (name : Str) (inner : SetErr)
  | missingRequiredFlag (name : Str)
  | missingRequiredArg (name : Str)
  | valueSetErr (inner : SetErr)
  | actionErr (msg : Str)
  | nilActionPanic
deriving DecidableEq, Repr

/-- Lookup in a modelled Go map: first match of an association list whose
inserts are prepended. -/
def mapFind {α : Type} (m : List (Str × α)) (k : Str) : Option α :=
  match m with
  | [] => none
  | (k', v) :: rest => if k' = k then some v else mapFind rest k

/-- Parser state: the tokenizer, the context with its ancestor chain
(root first, current context last, modelling the parent links), and the
entity lookup tables and pending positional queue. -/
structure Parser where
  tok : Tokenizer
  contextPath : List Command
  commands : List (Str × Command)
  flags : List (Str × Flag)
  shortFlags : List (Str × Flag)
  args : List Arg

/-- The current context: the last command of the path.  The path is
never empty once newParser ran; the root is the formal fallback. -/
def currentContext (p : Parser) (root : Command) : Command :=
  p.contextPath.getLast?.getD root

/-- setContext: rebuild the subcommand table from scratch, accumulate
the context's flags into the existing long and short tables (named
flags only; this is how ancestor flags stay visible and same-named
redeclarations shadow), and replace the pending positional queue with
the context's own args.  Go fills both flag tables in one loop; the two
folds below build the same two independent tables. -/
def setContext (p : Parser) (context : Command) : Parser :=
  { p with
    commands := context.commands.foldl (fun m c => (c.name, c) :: m) []
    flags := context.flags.foldl
      (fun m f => if f.name ≠ [] then (f.name, f) :: m else m) p.flags
    shortFlags := context.flags.foldl
      (fun m f =>
        match f.short with
        | some s => ([s], f) :: m
        | none => m) p.shortFlags
    args := context.args
    contextPath := p.contextPath ++ [context] }

/-- newParser: empty tables, then setContext on the root command. -/
def newParser (rootCommand : Command) (args : List Str) : Parser :=
  setContext
    { tok := newTokenizer args, contextPath := [], commands := [],
      flags := [], shortFlags := [], args := [] }
    rootCommand

/-- A parsed entity: the resolved object, the display name recorded for
it, and the raw string value. -/
inductive EntityRef where
  | flagRef (f : Flag)
  | argRef (a : Arg)
  | commandRef (c : Command)

structure Entity where
  option : EntityRef
  name : Str
  value : Str

/-- Identity and pre-action of an entity, as used by the seen set and by
invokePreActions (all three entity kinds implement invokePre). -/
def entityId : EntityRef → Nat
  | .flagRef f => f.id
  | .argRef a => a.id
  | .commandRef c => c.id

def entityPre : EntityRef → Option (Option Str)
  | .flagRef f => f.preAction
  | .argRef a => a.preAction
  | .commandRef c => c.preAction

/-- Decidable summary of an entity for stating results: its id, recorded
name and raw value. -/
def Entity.summary (e : Entity) : Nat × Str × Str :=
  (entityId e.option, e.name, e.value)

/-- The fallthrough part of parseFlagValue once no assigned value is
buffered: valueless flags consume nothing, boolean values default to
true, and any other flag takes the next token forced verbatim, failing
at end of input. -/
def parseFlagValueRest (p : Parser) (flag : Flag) (flagToken : Token) :
    Except GErr (Str × Parser) :=
  match flag.value with
  | none => .ok ([], p)
  | some v =>
    if IsBoolean (some v) then .ok ("true".data, p)
    else
      match p.tok.Next true with
      | (tk, tkz) =>
        if tk.type = .tEOF then .error (.requiresValue (Token.str flagToken))
        else .ok (tk.value, { p with tok := tkz })

/-- parseFlagValue: a buffered assigned token supplies the value without
being consumed here (the main loop later pops and ignores it), and is an
error for a flag with no backing Value. -/
def parseFlagValue (p : Parser) (flag : Flag) (flagToken : Token) :
    Except GErr (Str × Parser) :=
  match p.tok.Peek with
  | some tk =>
    if tk.type = .tAssigned then
      match flag.value with
      | none => .error (.flagNotAcceptValue tk.value (Token.str flagToken))
      | some _ => .ok (tk.value, p)
    else parseFlagValueRest p flag flagToken
  | none => parseFlagValueRest p flag flagToken

/-- Result of the resolver loop.  The Go loop runs until EOF or error;
the fuel parameter makes the recursion structural, and fuelOut marks the
unreachable exhaustion case. -/
inductive Outcome where
  | ok (parsed : List Entity) (p : Parser)
  | err (e : GErr) (parsed : List Entity) (p : Parser)
  | fuelOut (parsed : List Entity) (p : Parser)

def Outcome.parsedList : Outcome → List Entity
  | .ok parsed _ => parsed
  | .err _ parsed _ => parsed
  | .fuelOut parsed _ => parsed

/-- parser.Parse: the main resolver loop of the head revision.  Long and
short flags resolve through parseFlagValue; a positional token is a
subcommand whenever the context has any children, and otherwise feeds
the positional queue, aggregate slots staying at its head.  Assigned
tokens reaching the loop (the leftover of a boolean or valueless flag
with a joined value) match no case of the Go switch and are dropped. -/
def parserParse (fuel : Nat) (p : Parser) (parsed : List Entity) (verbatim : Bool) : Outcome :=
  match fuel with
  | 0 => .fuelOut parsed p
  | fuel + 1 =>
    match p.tok.Next verbatim with
    | (token, tkz) =>
      let p1 : Parser := { p with tok := tkz }
      match token.type with
      | .tEOF => .ok parsed p1
      | .tVerbatim => parserParse fuel p1 parsed true
      | .tLong =>
        match mapFind p1.flags token.value with
        | none => .err (.unknownFlag token.value) parsed p1
        | some flag =>
          match parseFlagValue p1 flag token with
          | .error e => .err e parsed p1
          | .ok (value, p2) =>
            parserParse fuel p2 (parsed ++ [⟨.flagRef flag, Token.str token, value⟩]) verbatim
      | .tShort =>
        match mapFind p1.shortFlags token.value with
        | none => .err (.unknownFlag token.value) parsed p1
        | some flag =>
          match parseFlagValue p1 flag token with
          | .error e => .err e parsed p1
          | .ok (value, p2) =>
            parserParse fuel p2 (parsed ++ [⟨.flagRef flag, Token.str token, value⟩]) verbatim
      | .tValue =>
        match p1.commands with
        | _ :: _ =>
          match mapFind p1.commands token.value with
          | none =>
            .err (.notValidCommand (FullName p1.contextPath ++ ' ' :: token.value)) parsed p1
          | some command =>
            parserParse fuel (setContext p1 command)
              (parsed ++ [⟨.commandRef command, command.name, token.value⟩]) verbatim
        | [] =>
          match p1.args with
          | [] => .err (.unexpectedArgument token.value) parsed p1
          | arg :: rest =>
            let p2 := if IsAggregate arg.value then p1 else { p1 with args := rest }
            parserParse fuel p2 (parsed ++ [⟨.argRef arg, arg.name, token.value⟩]) verbatim
      | .tAssigned => parserParse fuel p1 parsed verbatim
      | .tRemainder => parserParse fuel p1 parsed verbatim

/-! The value-application phase and Command.Parse. -/

/-- Flag.setValue: a nil Value accepts anything silently, otherwise the
backing Value's Set runs against the flag's slot of the store. -/
def Flag.setValue (f : Flag) (store : Store) (s : Str) : Option SetErr × Store :=
  match f.value with
  | none => (none, store)
  | some v =>
    match v.Set (storeGet store f.id) s with
    | (e, st) => (e, storeSet store f.id st)

/-- Arg.setValue, identical in shape to Flag.setValue. -/
def Arg.setValue (a : Arg) (store : Store) (s : Str) : Option SetErr × Store :=
  match a.value with
  | none => (none, store)
  | some v =>
    match v.Set (storeGet store a.id) s with
    | (e, st) => (e, storeSet store a.id st)

/-- First pass of setValues: apply each resolution in encounter order,
recording every setter entity in the seen set (commands have no setValue
and are skipped), and abort on the first Set failure wrapping it with
the raw value and the recorded entity name. -/
def setValuesPass1 (parsed : List Entity) (store : Store) (seen : List Nat) :
    Option GErr × Store × List Nat :=
  match parsed with
  | [] => (none, store, seen)
  | e :: rest =>
    match e.option with
    | .commandRef _ => setValuesPass1 rest store seen
    | .flagRef f =>
      match f.setValue store e.value with
      | (some err2, store') => (some (.invalidValue e.value e.name err2), store', f.id :: seen)
      | (none, store') => setValuesPass1 rest store' (f.id :: seen)
    | .argRef a =>
      match a.setValue store e.value with
      | (some err2, store') => (some (.invalidValue e.value e.name err2), store', a.id :: seen)
      | (none, store') => setValuesPass1 rest store' (a.id :: seen)

/-- applyDefault against the store of an entity identified by id. -/
def applyDefaultStore (v : Option Value) (id : Nat) (store : Store) :
    Option SetErr × Store :=
  match applyDefault v (storeGet store id) with
  | (e, st) => (e, storeSet store id st)

/-- The flag loop of setValues' validation pass: skip seen flags, fail
on an unseen required flag, otherwise apply its defaults. -/
def checkFlags (seen : List Nat) (store : Store) : List Flag → Option GErr × Store
  | [] => (none, store)
  | f :: rest =>
    if f.id ∈ seen then checkFlags seen store rest
    else if f.required then (some (.missingRequiredFlag f.name), store)
    else
      match applyDefaultStore f.value f.id store with
      | (some e, store') => (some (.valueSetErr e), store')
      | (none, store') => checkFlags seen store' rest

/-- The arg loop of setValues' validation pass. -/
def checkArgs (seen : List Nat) (store : Store) : List Arg → Option GErr × Store
  | [] => (none, store)
  | a :: rest =>
    if a.id ∈ seen then checkArgs seen store rest
    else if a.required then (some (.missingRequiredArg a.name), store)
    else
      match applyDefaultStore a.value a.id store with
      | (some e, store') => (some (.valueSetErr e), store')
      | (none, store') => checkArgs seen store' rest

/-- Second pass of setValues: Go collects the ancestor chain by parent
links and iterates it in reverse, i.e. from the root down to the final
context, which is exactly the parser's context path order; at each level
the flag loop runs before the arg loop. -/
def setValuesPass2 (seen : List Nat) (store : Store) : List Command → Option GErr × Store
  | [] => (none, store)
  | c :: rest =>
    match checkFlags seen store c.flags with
    | (some e, store') => (some e, store')
    | (none, store') =>
      match checkArgs seen store' c.args with
      | (some e, store'') => (some e, store'')
      | (none, store'') => setValuesPass2 seen store'' rest

/-- setValues(context, parsed): both passes, the path standing for the
final context together with its parent chain. -/
def setValues (path : List Command) (parsed : List Entity) (store : Store) :
    Option GErr × Store :=
  match setValuesPass1 parsed store [] with
  | (some e, store', _) => (some e, store')
  | (none, store', seen) => setValuesPass2 seen store' path

/-- invokePreActions: every parsed entity's invokePre runs in encounter
order with the final context; an entity without a PreAction contributes
nothing, a present closure is invoked (recorded as its id paired with
the id of the context it receives) and its error stops the walk. -/
def invokePreActions (context : Command) : List Entity → Option Str × List (Nat × Nat)
  | [] => (none, [])
  | e :: rest =>
    match entityPre e.option with
    | none => invokePreActions context rest
    | some r =>
      match r with
      | some msg => (some msg, [(entityId e.option, context.id)])
      | none =>
        match invokePreActions context rest with
        | (res, tr) => (res, (entityId e.option, context.id) :: tr)

/-- The observable result of Command.Parse: the returned error, the
final store of bound variables, the resolutions, the final context, and
the traces of PreAction and Action closure invocations (closure owner
id paired with the id of the context passed to it). -/
structure ParseResult where
  err : Option GErr
  store : Store
  parsed : List Entity
  context : Command
  preInvocations : List (Nat × Nat)
  actionInvocations : List (Nat × Nat)

/-- Fuel that strictly dominates the number of loop iterations: every
iteration either pops a raw argument, shortens the buffered remainder,
or drops a buffered token. -/
def defaultFuel (args : List Str) : Nat :=
  (args.map (fun a => a.length + 2)).sum + 2

/-- The resolution phase of Command.Parse: parser := newParser(c, args)
followed by parser.Parse(). -/
def resolvePhase (c : Command) (argv : List Str) : Outcome :=
  parserParse (defaultFuel argv) (newParser c argv) [] false

/-- The tail of Command.Parse after the resolver ran: pre-actions are
invoked before the parse error is reported (their own error supersedes
it), then setValues, then the Action dispatch, which guards on the
receiver's Action but invokes the final context's — calling a nil
closure when only the receiver has one. -/
def finishParse (c : Command) (parsed : List Entity) (pf : Parser)
    (parseErr : Option GErr) (store : Store) : ParseResult :=
  let context := currentContext pf c
  match invokePreActions context parsed with
  | (some m, trace) =>
    ⟨some (.actionErr m), store, parsed, context, trace, []⟩
  | (none, trace) =>
    match parseErr with
    | some e => ⟨some e, store, parsed, context, trace, []⟩
    | none =>
      match setValues pf.contextPath parsed store with
      | (some e, store') => ⟨some e, store', parsed, context, trace, []⟩
      | (none, store') =>
        match c.action with
        | none => ⟨none, store', parsed, context, trace, []⟩
        | some _ =>
          match context.action with
          | none => ⟨some .nilActionPanic, store', parsed, context, trace, []⟩
          | some res =>
            ⟨res.map .actionErr, store', parsed, context, trace, [(context.id, context.id)]⟩

/-- Command.Parse: resolve, then hand everything to finishParse.  none
is the unreachable fuel-exhaustion case. -/
def Command.Parse (c : Command) (argv : List Str) (store : Store) : Option ParseResult :=
  match resolvePhase c argv with
  | .fuelOut _ _ => none
  | .ok parsed pf => some (finishParse c parsed pf none store)
  | .err e parsed pf => some (finishParse c parsed pf (some e) store)

/-- Whether an outcome of the resolver is an error. -/
def Outcome.isErr : Outcome → Bool
  | .err _ _ _ => true
  | _ => false

/-- The error of a resolver outcome, if any. -/
def Outcome.errOf : Outcome → Option GErr
  | .err e _ _ => some e
  | _ => none

/-! Concrete command trees used to instantiate the claims, mirroring the
setups of the repository's tests. -/

/-- The flag set of TestParseFlags: an int flag, a string flag with a
default, a boolean flag and an aggregate int-slice flag. -/
def intFlag : Flag :=
  { id := 1, name := "int".data, short := some 'i', value := some ⟨.vInt, false, []⟩ }

def stringFlag : Flag :=
  { id := 2, name := "string".data, short := some 's',
    value := some ⟨.vString, true, ["default".data]⟩ }

def boolFlag : Flag :=
  { id := 3, name := "bool".data, short := some 'b', value := some ⟨.vBool, false, []⟩ }

def arrayFlag : Flag :=
  { id := 4, name := "array".data, short := some 'a', value := some ⟨.vIntSlice, false, []⟩ }

def flagsCommand : Command :=
  .mk 0 "root".data none (some none) [] [intFlag, stringFlag, boolFlag, arrayFlag] []

def flagsStore : Store :=
  [(1, .stInt 0), (2, .stString []), (3, .stBool false), (4, .stIntSlice [])]

/-- The two-slot positional setup of the verbatim scenario: an int slot
followed by a string slot. -/
def intSlot : Arg := { id := 11, name := "int".data, value := some ⟨.vInt, false, []⟩ }

def stringSlot : Arg := { id := 12, name := "string".data, value := some ⟨.vString, false, []⟩ }

def slotsCommand : Command := .mk 0 "root".data none (some none) [] [] [intSlot, stringSlot]

def slotsStore : Store := [(11, .stInt 0), (12, .stString [])]

/-- The tree of TestParseCommands: root with children sub1 and sub2,
sub1 carrying a flag and a further child. -/
def subSubCommand : Command :=
  .mk 3 "sub-sub".data none (some none) [] []
    [{ id := 31, name := "arg".data, value := some ⟨.vString, false, []⟩ }]

def sub1Command : Command :=
  .mk 1 "sub1".data none (some none) [subSubCommand]
    [{ id := 21, name := "flag".data, value := some ⟨.vInt, false, []⟩ }] []

def sub2Command : Command := .mk 2 "sub2".data none (some none) [] [] []

def treeCommand : Command :=
  .mk 0 "root".data none (some none) [sub1Command, sub2Command] []
    [{ id := 41, name := "root-arg".data, value := some ⟨.vString, false, []⟩ }]

/-- A lone boolean flag named flag, for the negation behavior. -/
def loneBoolFlag : Flag :=
  { id := 7, name := "flag".data, short := some 'f', value := some ⟨.vBool, false, []⟩ }

def boolCommand : Command := .mk 0 "root".data none none [] [loneBoolFlag] []

/-- A root without an Action whose only child has one. -/
def actionChild : Command := .mk 1 "sub".data none (some none) [] [] []

def actionlessRoot : Command := .mk 0 "root".data none none [actionChild] [] []

/-! Claim theorems. -/

/-- Claim C3 (code bug, evaluation at the failing input): the raw string
foo is not parseable as an integer, and intValue.Set duly reports the
error leaving the variable unchanged, but intSliceValue.Set returns no
error for the same raw string and leaves the slice unchanged, because
its body ends in return nil instead of returning the strconv error; an
entire parse of the aggregate flag with operand foo therefore succeeds
while silently dropping the value. -/
theorem intSliceValue_Set_swallows_parse_error :
    goParseInt64 "foo".data = .error .invalidSyntax ∧
    setBase .vIntSlice (.stIntSlice []) "foo".data = (none, .stIntSlice []) ∧
    setBase .vInt (.stInt 0) "foo".data = (some .invalidSyntax, .stInt 0) ∧
    (Command.Parse flagsCommand ["--array".data, "foo".data] flagsStore).map
        (fun r => (r.err, r.store)) =
      some (none,
        [(1, .stInt 0), (2, .stString "default".data), (3, .stBool false),
         (4, .stIntSlice [])]) := by
  refine ⟨by decide, by decide, by decide, by decide⟩

/-- Claim C2 (code bug, evaluation at the failing input): Command.Parse
guards the final dispatch on the receiver's own Action field but invokes
the final context's action.  With an actionless root whose subcommand
sub carries an action, parsing sub succeeds, the final context is sub,
sub's action exists, and yet no action is invoked. -/
theorem final_context_action_skipped_when_root_actionless :
    actionChild.action = some none ∧
    (Command.Parse actionlessRoot ["sub".data] []).map
        (fun r => (r.err, r.actionInvocations, r.context.id, r.context.action)) =
      some (none, [], 1, some none) := by
  refine ⟨by decide, by decide⟩

/-- Claim C1 (counterexample): with the boolean-backed flag named flag
declared and no flag named no-flag, parsing the single token no-flag in
long form does not resolve the flag to false; the parse fails with an
unknown-flag error and produces no resolution at all. -/
theorem negated_boolean_long_flag_is_unknown :
    (Command.Parse boolCommand ["--no-flag".data] [(7, .stBool false)]).map
        (fun r => (r.err, r.parsed.map Entity.summary, r.store)) =
      some (some (.unknownFlag "no-flag".data), [], [(7, .stBool false)]) := by
  decide

/-- Claim C10: when the resolution phase itself fails, Command.Parse
returns before setValues ever runs, so no Set call is made and the store
of bound variables is returned exactly as it was given — regardless of
whether the parse error or a pre-action error is the one reported. -/
theorem resolve_error_keeps_store (c : Command) (argv : List Str) (store : Store)
    (h : (resolvePhase c argv).isErr = true) :
    (Command.Parse c argv store).map (fun r => r.store) = some store := by
  unfold Command.Parse
  cases ho : resolvePhase c argv with
  | ok parsed pf => rw [ho] at h; exact absurd h (by simp [Outcome.isErr])
  | fuelOut parsed pf => rw [ho] at h; exact absurd h (by simp [Outcome.isErr])
  | err e parsed pf =>
    unfold finishParse
    cases hpre : invokePreActions (currentContext pf c) parsed with
    | mk res trace => cases res <;> simp [hpre]

/-- Witness for claim C10 at a concrete input: an unknown long flag
aborts resolution and the store is untouched. -/
theorem resolve_error_keeps_store_witness :
    (resolvePhase flagsCommand ["--not-here".data]).isErr = true ∧
    (Command.Parse flagsCommand ["--not-here".data] flagsStore).map (fun r => r.store) =
      some flagsStore :=
  ⟨by decide, resolve_error_keeps_store _ _ _ (by decide)⟩

/-- Claim C5: in any parser state whose current context has at least one
child command, a positional-value token is resolved only as a subcommand
name.  An unknown name fails with the not-a-valid-command error naming
the current context's full name followed by the token; a known name
switches the context to that child (extending the ancestor chain and
replacing the positional queue with the child's own args).  In both
cases no positional-argument resolution is recorded at this step, so the
context's own positional declarations are never matched. -/
theorem subcommand_priority_in_childful_context
    (fuel : Nat) (p : Parser) (parsed : List Entity) (verbatim : Bool)
    (w : Str) (tkz : Tokenizer)
    (hcmd : p.commands.isEmpty = false)
    (htok : p.tok.Next verbatim = (⟨.tValue, w⟩, tkz)) :
    ((mapFind p.commands w).isNone = true →
      parserParse (fuel + 1) p parsed verbatim =
        .err (.notValidCommand (FullName p.contextPath ++ ' ' :: w)) parsed
          { p with tok := tkz }) ∧
    (∀ child, mapFind p.commands w = some child →
      parserParse (fuel + 1) p parsed verbatim =
        parserParse fuel (setContext { p with tok := tkz } child)
          (parsed ++ [⟨.commandRef child, child.name, w⟩]) verbatim ∧
      (setContext { p with tok := tkz } child).args = child.args ∧
      (setContext { p with tok := tkz } child).contextPath = p.contextPath ++ [child]) := by
  rcases hc : p.commands with _ | ⟨c0, cs⟩
  · rw [hc] at hcmd; exact absurd hcmd (by simp)
  · constructor
    · intro hnone
      rw [Option.isNone_iff_eq_none] at hnone
      simp only [parserParse, htok]
      simp [hc, hnone]
    · intro child hchild
      refine ⟨?_, rfl, rfl⟩
      simp only [parserParse, htok]
      simp [hc, hchild]

/-- Witness for claim C5: against the test tree, the unknown positional
token nothere in the root context fails naming the attempted path root
nothere, exactly as in the repository's command tests. -/
theorem subcommand_priority_witness :
    parserParse 5 (newParser treeCommand ["nothere".data]) [] false =
      .err (.notValidCommand
          (FullName (newParser treeCommand ["nothere".data]).contextPath ++
            ' ' :: "nothere".data)) []
        { newParser treeCommand ["nothere".data] with tok := ⟨[], none⟩ } :=
  (subcommand_priority_in_childful_context 4 _ [] false "nothere".data ⟨[], none⟩
    (by decide) (by decide)).1 (by decide)

/-- splitEq finds no equals sign in a string free of them. -/
theorem splitEq_of_not_mem : ∀ (s : Str), '=' ∉ s → splitEq s = (s, none)
  | [], _ => rfl
  | c :: r, h => by
    have hc : ¬ (c = '=') := fun e => h (by simp [e])
    have hr : '=' ∉ r := fun hm => h (List.mem_cons_of_mem _ hm)
    simp only [splitEq, if_neg hc, splitEq_of_not_mem r hr]

/-- splitEq splits at the first equals sign. -/
theorem splitEq_append : ∀ (x y : Str), '=' ∉ x → splitEq (x ++ '=' :: y) = (x, some y)
  | [], y, _ => rfl
  | c :: r, y, h => by
    have hc : ¬ (c = '=') := fun e => h (by simp [e])
    have hr : '=' ∉ r := fun hm => h (List.mem_cons_of_mem _ hm)
    simp [splitEq, if_neg hc, splitEq_append r y hr]

/-- A string is never equal to itself prefixed with no-. -/
theorem ne_no_prefixed (n : Str) : ¬ (n = 'n' :: 'o' :: '-' :: n) := by
  intro h
  have := congrArg List.length h
  simp at this
  omega

/-! Single-step characterizations of the resolver loop, used to drive
symbolic runs of the parser. -/

theorem parserParse_step_eof (fuel : Nat) (p : Parser) (parsed : List Entity)
    (verbatim : Bool) (w : Str) (tkz : Tokenizer)
    (htok : p.tok.Next verbatim = (⟨.tEOF, w⟩, tkz)) :
    parserParse (fuel + 1) p parsed verbatim = .ok parsed { p with tok := tkz } := by
  simp only [parserParse, htok]

theorem parserParse_step_verbatim (fuel : Nat) (p : Parser) (parsed : List Entity)
    (verbatim : Bool) (w : Str) (tkz : Tokenizer)
    (htok : p.tok.Next verbatim = (⟨.tVerbatim, w⟩, tkz)) :
    parserParse (fuel + 1) p parsed verbatim =
      parserParse fuel { p with tok := tkz } parsed true := by
  simp only [parserParse, htok]

theorem parserParse_step_assigned (fuel : Nat) (p : Parser) (parsed : List Entity)
    (verbatim : Bool) (w : Str) (tkz : Tokenizer)
    (htok : p.tok.Next verbatim = (⟨.tAssigned, w⟩, tkz)) :
    parserParse (fuel + 1) p parsed verbatim =
      parserParse fuel { p with tok := tkz } parsed verbatim := by
  simp only [parserParse, htok]

theorem parserParse_step_long_found (fuel : Nat) (p : Parser) (parsed : List Entity)
    (verbatim : Bool) (w : Str) (tkz : Tokenizer) (flag : Flag) (value : Str) (p2 : Parser)
    (htok : p.tok.Next verbatim = (⟨.tLong, w⟩, tkz))
    (hf : mapFind p.flags w = some flag)
    (hv : parseFlagValue { p with tok := tkz } flag ⟨.tLong, w⟩ = .ok (value, p2)) :
    parserParse (fuel + 1) p parsed verbatim =
      parserParse fuel p2 (parsed ++ [⟨.flagRef flag, '-' :: '-' :: w, value⟩]) verbatim := by
  simp only [parserParse, htok, hf, hv, Token.str]

theorem parserParse_step_long_unknown (fuel : Nat) (p : Parser) (parsed : List Entity)
    (verbatim : Bool) (w : Str) (tkz : Tokenizer)
    (htok : p.tok.Next verbatim = (⟨.tLong, w⟩, tkz))
    (hf : mapFind p.flags w = none) :
    parserParse (fuel + 1) p parsed verbatim =
      .err (.unknownFlag w) parsed { p with tok := tkz } := by
  simp only [parserParse, htok, hf]

theorem parserParse_step_value_arg (fuel : Nat) (p : Parser) (parsed : List Entity)
    (verbatim : Bool) (w : Str) (tkz : Tokenizer) (arg : Arg) (rest : List Arg)
    (htok : p.tok.Next verbatim = (⟨.tValue, w⟩, tkz))
    (hcmd : p.commands = [])
    (hargs : p.args = arg :: rest) :
    parserParse (fuel + 1) p parsed verbatim =
      parserParse fuel
        (if IsAggregate arg.value then { p with tok := tkz }
          else { p with tok := tkz, args := rest })
        (parsed ++ [⟨.argRef arg, arg.name, w⟩]) verbatim := by
  simp only [parserParse, htok, hcmd, hargs]

theorem parserParse_step_value_switch (fuel : Nat) (p : Parser) (parsed : List Entity)
    (verbatim : Bool) (w : Str) (tkz : Tokenizer) (child : Command)
    (htok : p.tok.Next verbatim = (⟨.tValue, w⟩, tkz))
    (hne : p.commands ≠ [])
    (hc : mapFind p.commands w = some child) :
    parserParse (fuel + 1) p parsed verbatim =
      parserParse fuel (setContext { p with tok := tkz } child)
        (parsed ++ [⟨.commandRef child, child.name, w⟩]) verbatim := by
  rcases hcs : p.commands with _ | ⟨k0, ks⟩
  · exact absurd hcs hne
  · rw [hcs] at hc
    simp only [parserParse, htok]
    simp [hcs, hc]

theorem splitEq_cons_append (c0 : Char) (n0 y : Str) (h : '=' ∉ (c0 :: n0)) :
    splitEq (c0 :: (n0 ++ '=' :: y)) = (c0 :: n0, some y) := by
  have h2 := splitEq_append (c0 :: n0) y h
  simpa using h2

/-- A boolean-backed flag with an arbitrary long name, followed by one
string positional slot that absorbs whatever token the flag did not
consume. -/
def namedBoolFlag (n : Str) : Flag :=
  { id := 1, name := n, short := none, required := false, preAction := none,
    value := some ⟨.vBool, false, []⟩ }

def trailingSlot : Arg :=
  { id := 2, name := "rest".data, required := false, preAction := none,
    value := some ⟨.vString, false, []⟩ }

def namedBoolCommand (n : Str) : Command :=
  .mk 0 "root".data none none [] [namedBoolFlag n] [trailingSlot]

def namedBoolStore (b0 : Bool) : Store := [(1, .stBool b0), (2, .stString [])]

/-- The parser states traversed while resolving the boolean flag: the
lookup tables of the single context with its one named flag. -/
def namedBoolParser (n : Str) (args : List Str) (buf : Option Token) (queue : List Arg) :
    Parser :=
  { tok := ⟨args, buf⟩, contextPath := [namedBoolCommand n],
    commands := [], flags := [(n, namedBoolFlag n)], shortFlags := [], args := queue }

theorem namedBool_newParser (c0 : Char) (n0 : Str) (args : List Str) :
    newParser (namedBoolCommand (c0 :: n0)) args =
      namedBoolParser (c0 :: n0) args none [trailingSlot] := rfl

/-- Resolver run for the bare long form of the boolean flag: resolves to
true without consuming the following token, which the positional slot
then takes. -/
theorem namedBool_run_bare (c0 : Char) (n0 : Str) (heq : '=' ∉ (c0 :: n0)) (f : Nat) :
    parserParse (f + 3)
        (namedBoolParser (c0 :: n0) ['-' :: '-' :: c0 :: n0, "v".data] none [trailingSlot])
        [] false =
      .ok [⟨.flagRef (namedBoolFlag (c0 :: n0)), '-' :: '-' :: c0 :: n0, "true".data⟩,
          ⟨.argRef trailingSlot, "rest".data, "v".data⟩]
        (namedBoolParser (c0 :: n0) [] none []) := by
  have e1 : (namedBoolParser (c0 :: n0) ['-' :: '-' :: c0 :: n0, "v".data] none
      [trailingSlot]).tok.Next false = (⟨.tLong, c0 :: n0⟩, ⟨["v".data], none⟩) := by
    simp [namedBoolParser, Tokenizer.Next, nextFromArg, splitEq_of_not_mem _ heq]
  have hf1 : mapFind (namedBoolParser (c0 :: n0) ['-' :: '-' :: c0 :: n0, "v".data] none
      [trailingSlot]).flags (c0 :: n0) = some (namedBoolFlag (c0 :: n0)) := by
    simp [namedBoolParser, mapFind]
  have hv1 : parseFlagValue (namedBoolParser (c0 :: n0) ["v".data] none [trailingSlot])
      (namedBoolFlag (c0 :: n0)) ⟨.tLong, c0 :: n0⟩ =
      .ok ("true".data, namedBoolParser (c0 :: n0) ["v".data] none [trailingSlot]) := rfl
  refine (parserParse_step_long_found (f + 2) _ [] false (c0 :: n0) ⟨["v".data], none⟩
    (namedBoolFlag (c0 :: n0)) "true".data
    (namedBoolParser (c0 :: n0) ["v".data] none [trailingSlot]) e1 hf1 hv1).trans ?_
  refine (parserParse_step_value_arg (f + 1)
    (namedBoolParser (c0 :: n0) ["v".data] none [trailingSlot]) _ false "v".data ⟨[], none⟩
    trailingSlot [] rfl rfl rfl).trans ?_
  rw [if_neg (by decide)]
  exact parserParse_step_eof f _ _ false [] ⟨[], none⟩ rfl

/-- Resolver run for the joined explicit false form: the buffered
assigned token supplies false without being consumed, the main loop then
drops it, and the following token again goes to the positional slot. -/
theorem namedBool_run_joined (c0 : Char) (n0 : Str) (heq : '=' ∉ (c0 :: n0)) (f : Nat) :
    parserParse (f + 4)
        (namedBoolParser (c0 :: n0)
          [('-' :: '-' :: c0 :: n0) ++ '=' :: "false".data, "v".data] none [trailingSlot])
        [] false =
      .ok [⟨.flagRef (namedBoolFlag (c0 :: n0)), '-' :: '-' :: c0 :: n0, "false".data⟩,
          ⟨.argRef trailingSlot, "rest".data, "v".data⟩]
        (namedBoolParser (c0 :: n0) [] none []) := by
  have e1 : (namedBoolParser (c0 :: n0)
      [('-' :: '-' :: c0 :: n0) ++ '=' :: "false".data, "v".data] none
      [trailingSlot]).tok.Next false =
      (⟨.tLong, c0 :: n0⟩, ⟨["v".data], some ⟨.tAssigned, "false".data⟩⟩) := by
    simp [namedBoolParser, Tokenizer.Next, nextFromArg, splitEq_cons_append _ _ _ heq]
  have hf1 : mapFind (namedBoolParser (c0 :: n0)
      [('-' :: '-' :: c0 :: n0) ++ '=' :: "false".data, "v".data] none
      [trailingSlot]).flags (c0 :: n0) = some (namedBoolFlag (c0 :: n0)) := by
    simp [namedBoolParser, mapFind]
  have hv1 : parseFlagValue
      (namedBoolParser (c0 :: n0) ["v".data] (some ⟨.tAssigned, "false".data⟩) [trailingSlot])
      (namedBoolFlag (c0 :: n0)) ⟨.tLong, c0 :: n0⟩ =
      .ok ("false".data,
        namedBoolParser (c0 :: n0) ["v".data] (some ⟨.tAssigned, "false".data⟩)
          [trailingSlot]) := rfl
  refine (parserParse_step_long_found (f + 3) _ [] false (c0 :: n0)
    ⟨["v".data], some ⟨.tAssigned, "false".data⟩⟩ (namedBoolFlag (c0 :: n0)) "false".data
    (namedBoolParser (c0 :: n0) ["v".data] (some ⟨.tAssigned, "false".data⟩) [trailingSlot])
    e1 hf1 hv1).trans ?_
  refine (parserParse_step_assigned (f + 2)
    (namedBoolParser (c0 :: n0) ["v".data] (some ⟨.tAssigned, "false".data⟩) [trailingSlot])
    _ false "false".data ⟨["v".data], none⟩ rfl).trans ?_
  refine (parserParse_step_value_arg (f + 1)
    (namedBoolParser (c0 :: n0) ["v".data] none [trailingSlot]) _ false "v".data ⟨[], none⟩
    trailingSlot [] rfl rfl rfl).trans ?_
  rw [if_neg (by decide)]
  exact parserParse_step_eof f _ _ false [] ⟨[], none⟩ rfl

/-- Resolver run for the negated form: the name no-n is simply missing
from the flag table, so resolution aborts with an unknown-flag error. -/
theorem namedBool_run_negated (c0 : Char) (n0 : Str) (heq : '=' ∉ (c0 :: n0)) (f : Nat) :
    parserParse (f + 1)
        (namedBoolParser (c0 :: n0) ['-' :: '-' :: 'n' :: 'o' :: '-' :: c0 :: n0] none
          [trailingSlot]) [] false =
      .err (.unknownFlag ('n' :: 'o' :: '-' :: c0 :: n0)) []
        (namedBoolParser (c0 :: n0) [] none [trailingSlot]) := by
  have hno : '=' ∉ ('n' :: 'o' :: '-' :: c0 :: n0) := by
    intro hm
    rcases List.mem_cons.mp hm with h | hm
    · exact absurd h (by decide)
    rcases List.mem_cons.mp hm with h | hm
    · exact absurd h (by decide)
    rcases List.mem_cons.mp hm with h | hm
    · exact absurd h (by decide)
    exact heq hm
  have e1 : (namedBoolParser (c0 :: n0) ['-' :: '-' :: 'n' :: 'o' :: '-' :: c0 :: n0] none
      [trailingSlot]).tok.Next false =
      (⟨.tLong, 'n' :: 'o' :: '-' :: c0 :: n0⟩, ⟨[], none⟩) := by
    simp [namedBoolParser, Tokenizer.Next, nextFromArg, splitEq_of_not_mem _ hno]
  have hf1 : mapFind (namedBoolParser (c0 :: n0)
      ['-' :: '-' :: 'n' :: 'o' :: '-' :: c0 :: n0] none [trailingSlot]).flags
      ('n' :: 'o' :: '-' :: c0 :: n0) = none := by
    have hneq := ne_no_prefixed (c0 :: n0)
    simp [namedBoolParser, mapFind, hneq]
  exact parserParse_step_long_unknown f _ [] false ('n' :: 'o' :: '-' :: c0 :: n0) ⟨[], none⟩
    e1 hf1

/-- Claim C1 (amended): for every boolean-backed flag with a long name n,
the bare long token resolves the flag to true and the joined explicit
false resolves it to false, in both cases consuming no following
argument token (the next token still reaches the positional slot); but
the negated long form no-n, when no flag of that name is declared, does
not resolve the flag to false — parsing fails with an unknown-flag error
and nothing is resolved or set at all. -/
theorem boolean_flag_forms_amended (c0 : Char) (n0 : Str) (b0 : Bool)
    (heq : '=' ∉ (c0 :: n0)) :
    (Command.Parse (namedBoolCommand (c0 :: n0)) ['-' :: '-' :: c0 :: n0, "v".data]
        (namedBoolStore b0)).map
        (fun r => (r.err, r.parsed.map Entity.summary, r.store)) =
      some (none,
        [(1, '-' :: '-' :: c0 :: n0, "true".data), (2, "rest".data, "v".data)],
        [(1, .stBool true), (2, .stString "v".data)]) ∧
    (Command.Parse (namedBoolCommand (c0 :: n0))
        [('-' :: '-' :: c0 :: n0) ++ '=' :: "false".data, "v".data]
        (namedBoolStore b0)).map
        (fun r => (r.err, r.parsed.map Entity.summary, r.store)) =
      some (none,
        [(1, '-' :: '-' :: c0 :: n0, "false".data), (2, "rest".data, "v".data)],
        [(1, .stBool false), (2, .stString "v".data)]) ∧
    (Command.Parse (namedBoolCommand (c0 :: n0))
        ['-' :: '-' :: 'n' :: 'o' :: '-' :: c0 :: n0] (namedBoolStore b0)).map
        (fun r => (r.err, r.parsed.map Entity.summary, r.store)) =
      some (some (.unknownFlag ('n' :: 'o' :: '-' :: c0 :: n0)), [],
        [(1, .stBool b0), (2, .stString [])]) := by
  refine ⟨?_, ?_, ?_⟩
  · have hfuel : defaultFuel ['-' :: '-' :: c0 :: n0, "v".data] = (n0.length + 7) + 3 := by
      simp [defaultFuel]
    have hrun := namedBool_run_bare c0 n0 heq (n0.length + 7)
    simp only [Command.Parse, resolvePhase, hfuel, namedBool_newParser, hrun]
    simp [finishParse, invokePreActions, entityPre, currentContext, namedBoolParser,
      setValues, setValuesPass1, setValuesPass2, checkFlags, checkArgs,
      Flag.setValue, Arg.setValue, Value.Set, setBase, goParseBool, storeGet, storeSet,
      applyDefaultStore, applyDefault, Entity.summary, entityId,
      namedBoolCommand, namedBoolFlag, trailingSlot, namedBoolStore,
      Command.flags, Command.commands, Command.args, Command.action, Command.id,
      Command.name, Command.preAction]
  · have hfuel : defaultFuel [('-' :: '-' :: c0 :: n0) ++ '=' :: "false".data, "v".data] =
        (n0.length + 12) + 4 := by
      simp [defaultFuel]
    have hrun := namedBool_run_joined c0 n0 heq (n0.length + 12)
    simp only [Command.Parse, resolvePhase, hfuel, namedBool_newParser, hrun]
    simp [finishParse, invokePreActions, entityPre, currentContext, namedBoolParser,
      setValues, setValuesPass1, setValuesPass2, checkFlags, checkArgs,
      Flag.setValue, Arg.setValue, Value.Set, setBase, goParseBool, storeGet, storeSet,
      applyDefaultStore, applyDefault, Entity.summary, entityId,
      namedBoolCommand, namedBoolFlag, trailingSlot, namedBoolStore,
      Command.flags, Command.commands, Command.args, Command.action, Command.id,
      Command.name, Command.preAction]
  · have hfuel : defaultFuel ['-' :: '-' :: 'n' :: 'o' :: '-' :: c0 :: n0] =
        (n0.length + 9) + 1 := by
      simp [defaultFuel]
    have hrun := namedBool_run_negated c0 n0 heq (n0.length + 9)
    simp only [Command.Parse, resolvePhase, hfuel, namedBool_newParser, hrun]
    simp [finishParse, invokePreActions, entityPre, currentContext, namedBoolParser,
      namedBoolStore]

/-- Witness for the amended claim C1 at the concrete flag name flag. -/
theorem boolean_flag_forms_amended_witness :
    (Command.Parse (namedBoolCommand ('f' :: "lag".data))
        ['-' :: '-' :: 'f' :: "lag".data, "v".data] (namedBoolStore false)).map
        (fun r => (r.err, r.parsed.map Entity.summary, r.store)) =
      some (none,
        [(1, '-' :: '-' :: 'f' :: "lag".data, "true".data), (2, "rest".data, "v".data)],
        [(1, .stBool true), (2, .stString "v".data)]) ∧
    (Command.Parse (namedBoolCommand ('f' :: "lag".data))
        [('-' :: '-' :: 'f' :: "lag".data) ++ '=' :: "false".data, "v".data]
        (namedBoolStore false)).map
        (fun r => (r.err, r.parsed.map Entity.summary, r.store)) =
      some (none,
        [(1, '-' :: '-' :: 'f' :: "lag".data, "false".data), (2, "rest".data, "v".data)],
        [(1, .stBool false), (2, .stString "v".data)]) ∧
    (Command.Parse (namedBoolCommand ('f' :: "lag".data))
        ['-' :: '-' :: 'n' :: 'o' :: '-' :: 'f' :: "lag".data] (namedBoolStore false)).map
        (fun r => (r.err, r.parsed.map Entity.summary, r.store)) =
      some (some (.unknownFlag ('n' :: 'o' :: '-' :: 'f' :: "lag".data)), [],
        [(1, .stBool false), (2, .stString [])]) :=
  boolean_flag_forms_amended 'f' "lag".data false (by decide)

/-- A flag with an arbitrary long name and an arbitrary backing value,
declared alone on a single command. -/
def namedValueFlag (n : Str) (v : Value) : Flag :=
  { id := 1, name := n, short := none, required := false, preAction := none,
    value := some v }

def namedValueCommand (n : Str) (v : Value) : Command :=
  .mk 0 "root".data none none [] [namedValueFlag n v] []

def namedValueParser (n : Str) (v : Value) (args : List Str) (buf : Option Token) : Parser :=
  { tok := ⟨args, buf⟩, contextPath := [namedValueCommand n v],
    commands := [], flags := [(n, namedValueFlag n v)], shortFlags := [], args := [] }

theorem namedValue_newParser (c0 : Char) (n0 : Str) (v : Value) (args : List Str) :
    newParser (namedValueCommand (c0 :: n0) v) args =
      namedValueParser (c0 :: n0) v args none := rfl

/-- Resolver run for the equals-joined long flag form. -/
theorem namedValue_run_joined (c0 : Char) (n0 y : Str) (v : Value)
    (heq : '=' ∉ (c0 :: n0)) (f : Nat) :
    parserParse (f + 3)
        (namedValueParser (c0 :: n0) v [('-' :: '-' :: c0 :: n0) ++ '=' :: y] none) [] false =
      .ok [⟨.flagRef (namedValueFlag (c0 :: n0) v), '-' :: '-' :: c0 :: n0, y⟩]
        (namedValueParser (c0 :: n0) v [] none) := by
  have e1 : (namedValueParser (c0 :: n0) v [('-' :: '-' :: c0 :: n0) ++ '=' :: y]
      none).tok.Next false =
      (⟨.tLong, c0 :: n0⟩, ⟨[], some ⟨.tAssigned, y⟩⟩) := by
    simp [namedValueParser, Tokenizer.Next, nextFromArg, splitEq_cons_append _ _ _ heq]
  have hf1 : mapFind (namedValueParser (c0 :: n0) v [('-' :: '-' :: c0 :: n0) ++ '=' :: y]
      none).flags (c0 :: n0) = some (namedValueFlag (c0 :: n0) v) := by
    simp [namedValueParser, mapFind]
  have hv1 : parseFlagValue (namedValueParser (c0 :: n0) v [] (some ⟨.tAssigned, y⟩))
      (namedValueFlag (c0 :: n0) v) ⟨.tLong, c0 :: n0⟩ =
      .ok (y, namedValueParser (c0 :: n0) v [] (some ⟨.tAssigned, y⟩)) := rfl
  refine (parserParse_step_long_found (f + 2) _ [] false (c0 :: n0)
    ⟨[], some ⟨.tAssigned, y⟩⟩ (namedValueFlag (c0 :: n0) v) y
    (namedValueParser (c0 :: n0) v [] (some ⟨.tAssigned, y⟩)) e1 hf1 hv1).trans ?_
  refine (parserParse_step_assigned (f + 1)
    (namedValueParser (c0 :: n0) v [] (some ⟨.tAssigned, y⟩)) _ false y ⟨[], none⟩
    rfl).trans ?_
  exact parserParse_step_eof f _ _ false [] ⟨[], none⟩ rfl

/-- Resolver run for the two-token long flag form with a non-boolean
value: the operand is fetched with a forced-verbatim Next. -/
theorem namedValue_run_separate (c0 : Char) (n0 y : Str) (v : Value)
    (heq : '=' ∉ (c0 :: n0)) (hb : IsBoolean (some v) = false) (f : Nat) :
    parserParse (f + 2)
        (namedValueParser (c0 :: n0) v ['-' :: '-' :: c0 :: n0, y] none) [] false =
      .ok [⟨.flagRef (namedValueFlag (c0 :: n0) v), '-' :: '-' :: c0 :: n0, y⟩]
        (namedValueParser (c0 :: n0) v [] none) := by
  have e1 : (namedValueParser (c0 :: n0) v ['-' :: '-' :: c0 :: n0, y] none).tok.Next false =
      (⟨.tLong, c0 :: n0⟩, ⟨[y], none⟩) := by
    simp [namedValueParser, Tokenizer.Next, nextFromArg, splitEq_of_not_mem _ heq]
  have hf1 : mapFind (namedValueParser (c0 :: n0) v ['-' :: '-' :: c0 :: n0, y]
      none).flags (c0 :: n0) = some (namedValueFlag (c0 :: n0) v) := by
    simp [namedValueParser, mapFind]
  have hv1 : parseFlagValue (namedValueParser (c0 :: n0) v [y] none)
      (namedValueFlag (c0 :: n0) v) ⟨.tLong, c0 :: n0⟩ =
      .ok (y, namedValueParser (c0 :: n0) v [] none) := by
    simp [parseFlagValue, Tokenizer.Peek, parseFlagValueRest, namedValueParser,
      namedValueFlag, hb, Tokenizer.Next, nextFromArg]
  refine (parserParse_step_long_found (f + 1) _ [] false (c0 :: n0) ⟨[y], none⟩
    (namedValueFlag (c0 :: n0) v) y (namedValueParser (c0 :: n0) v [] none)
    e1 hf1 hv1).trans ?_
  exact parserParse_step_eof f _ _ false [] ⟨[], none⟩ rfl

/-- Claim C8: for every long flag name declared with a non-boolean
backing value and every operand string not starting with a dash, parsing
the single equals-joined token gives exactly the same outcome — error,
store, resolutions, traces — as parsing the name and operand as two
separate tokens, and in both cases the single recorded resolution pairs
the flag with the verbatim operand. -/
theorem joined_and_separate_long_flag_agree (c0 : Char) (n0 y : Str) (v : Value)
    (store : Store) (heq : '=' ∉ (c0 :: n0)) (hb : IsBoolean (some v) = false)
    (hy : ¬ y.head? = some '-') :
    Command.Parse (namedValueCommand (c0 :: n0) v) [('-' :: '-' :: c0 :: n0) ++ '=' :: y]
        store =
      Command.Parse (namedValueCommand (c0 :: n0) v) ['-' :: '-' :: c0 :: n0, y] store ∧
    (Command.Parse (namedValueCommand (c0 :: n0) v) [('-' :: '-' :: c0 :: n0) ++ '=' :: y]
        store).map (fun r => r.parsed.map Entity.summary) =
      some [(1, '-' :: '-' :: c0 :: n0, y)] := by
  have hfuel1 : defaultFuel [('-' :: '-' :: c0 :: n0) ++ '=' :: y] =
      (n0.length + y.length + 5) + 3 := by
    simp [defaultFuel]
    omega
  have hfuel2 : defaultFuel ['-' :: '-' :: c0 :: n0, y] =
      (n0.length + y.length + 7) + 2 := by
    simp [defaultFuel]
    omega
  have hrun1 := namedValue_run_joined c0 n0 y v heq (n0.length + y.length + 5)
  have hrun2 := namedValue_run_separate c0 n0 y v heq hb (n0.length + y.length + 7)
  constructor
  · simp only [Command.Parse, resolvePhase, hfuel1, hfuel2, namedValue_newParser,
      hrun1, hrun2]
  · simp only [Command.Parse, resolvePhase, hfuel1, namedValue_newParser, hrun1]
    have hctx : currentContext (namedValueParser (c0 :: n0) v [] none)
        (namedValueCommand (c0 :: n0) v) = namedValueCommand (c0 :: n0) v := rfl
    have hpre : invokePreActions (namedValueCommand (c0 :: n0) v)
        [⟨.flagRef (namedValueFlag (c0 :: n0) v), '-' :: '-' :: c0 :: n0, y⟩] =
        (none, []) := rfl
    have hpath : (namedValueParser (c0 :: n0) v [] none).contextPath =
        [namedValueCommand (c0 :: n0) v] := rfl
    simp only [finishParse, hctx, hpre, hpath]
    rcases hsv : setValues [namedValueCommand (c0 :: n0) v]
        [⟨.flagRef (namedValueFlag (c0 :: n0) v), '-' :: '-' :: c0 :: n0, y⟩] store with
      ⟨e, store2⟩
    cases e <;>
      simp [hsv, Entity.summary, entityId, namedValueCommand, namedValueFlag,
        Command.action]

theorem parserParse_step_value_unexpected (fuel : Nat) (p : Parser) (parsed : List Entity)
    (verbatim : Bool) (w : Str) (tkz : Tokenizer)
    (htok : p.tok.Next verbatim = (⟨.tValue, w⟩, tkz))
    (hcmd : p.commands = []) (hargs : p.args = []) :
    parserParse (fuel + 1) p parsed verbatim =
      .err (.unexpectedArgument w) parsed { p with tok := tkz } := by
  simp only [parserParse, htok, hcmd, hargs]

theorem parserParse_step_value_unknown (fuel : Nat) (p : Parser) (parsed : List Entity)
    (verbatim : Bool) (w : Str) (tkz : Tokenizer)
    (hne : p.commands ≠ [])
    (htok : p.tok.Next verbatim = (⟨.tValue, w⟩, tkz))
    (hfind : mapFind p.commands w = none) :
    parserParse (fuel + 1) p parsed verbatim =
      .err (.notValidCommand (FullName p.contextPath ++ ' ' :: w)) parsed
        { p with tok := tkz } := by
  rcases hcs : p.commands with _ | ⟨k0, ks⟩
  · exact absurd hcs hne
  · rw [hcs] at hfind
    simp only [parserParse, htok]
    simp [hcs, hfind]

/-- Entities that record a flag resolution. -/
def EntityRef.isFlagRef : EntityRef → Bool
  | .flagRef _ => true
  | _ => false

def flagResolutionCount (l : List Entity) : Nat :=
  l.countP (fun e => e.option.isFlagRef)

/-- In verbatim mode with an empty scanner buffer, the resolver never
records another flag resolution: every further token is a value. -/
theorem verbatim_no_flag_resolutions (fuel : Nat) :
    ∀ (p : Parser) (parsed : List Entity), p.tok.next = none →
      flagResolutionCount (parserParse fuel p parsed true).parsedList =
        flagResolutionCount parsed := by
  induction fuel with
  | zero => intro p parsed _; rfl
  | succ f ih =>
    intro p parsed h
    rcases hargs : p.tok.args with _ | ⟨a, rest⟩
    · have e : p.tok.Next true = (⟨.tEOF, []⟩, p.tok) := by
        simp [Tokenizer.Next, h, hargs]
      rw [parserParse_step_eof f p parsed true [] p.tok e]
      rfl
    · have e : p.tok.Next true = (⟨.tValue, a⟩, ⟨rest, none⟩) := by
        simp [Tokenizer.Next, h, hargs, nextFromArg]
      rcases hcs : p.commands with _ | ⟨k0, ks⟩
      · rcases has : p.args with _ | ⟨arg, restA⟩
        · rw [parserParse_step_value_unexpected f p parsed true a ⟨rest, none⟩ e hcs has]
          rfl
        · rw [parserParse_step_value_arg f p parsed true a ⟨rest, none⟩ arg restA e hcs has]
          have h2 : (if IsAggregate arg.value then { p with tok := (⟨rest, none⟩ : Tokenizer) }
              else { p with tok := (⟨rest, none⟩ : Tokenizer), args := restA }).tok.next =
              none := by
            cases IsAggregate arg.value <;> rfl
          rw [ih _ _ h2]
          simp [flagResolutionCount, EntityRef.isFlagRef]
      · rcases hfind : mapFind p.commands a with _ | child
        · rw [parserParse_step_value_unknown f p parsed true a ⟨rest, none⟩
            (by simp [hcs]) e hfind]
          rfl
        · rw [parserParse_step_value_switch f p parsed true a ⟨rest, none⟩ child e
            (by simp [hcs]) hfind]
          rw [ih _ _ rfl]
          simp [flagResolutionCount, EntityRef.isFlagRef]

/-- Claim C9 (counterexample): after the bare double dash, a token that
names a child of the current context is still resolved as a subcommand,
not as a positional value: parsing the verbatim switch followed by sub
against a root with child sub switches the context to sub and records a
command resolution. -/
theorem verbatim_token_still_matches_subcommand :
    (Command.Parse actionlessRoot ["--".data, "sub".data] []).map
        (fun r => (r.err, r.context.id, r.context.name, r.parsed.map Entity.summary)) =
      some (none, 1, "sub".data, [(1, "sub".data, "sub".data)]) := by
  decide

/-- Claim C9 (amended): the verbatim switch is lexical.  Once the bare
double dash is consumed, the scanner hands every subsequent argument on
as a positional-value token with its exact original content, and the
resolver never again resolves a flag; such a token still participates in
subcommand lookup when the context has children, while in a child-less
context it fills positional slots verbatim — on the two-slot int/string
spec, the input 81, the switch, then dash-dash-foo stores 81 and the
literal dash-dash-foo string. -/
theorem verbatim_switch_amended :
    (∀ (s : Str) (rest : List Str),
      Tokenizer.Next ⟨s :: rest, none⟩ true = (⟨.tValue, s⟩, ⟨rest, none⟩)) ∧
    (∀ (fuel : Nat) (p : Parser) (parsed : List Entity), p.tok.next = none →
      flagResolutionCount (parserParse fuel p parsed true).parsedList =
        flagResolutionCount parsed) ∧
    (Command.Parse slotsCommand ["81".data, "--".data, "--foo".data] slotsStore).map
        (fun r => (r.err, r.store, r.parsed.map Entity.summary)) =
      some (none, [(11, .stInt 81), (12, .stString "--foo".data)],
        [(11, "int".data, "81".data), (12, "string".data, "--foo".data)]) :=
  ⟨fun _ _ => rfl, verbatim_no_flag_resolutions, by decide⟩

/-- Witness for the amended claim C9: the scanner passes a dash-leading
string through unchanged in verbatim mode, and a verbatim-mode resolver
run records no flag resolution. -/
theorem verbatim_switch_amended_witness :
    Tokenizer.Next ⟨["--foo".data], none⟩ true =
      (⟨.tValue, "--foo".data⟩, ⟨[], none⟩) ∧
    flagResolutionCount
        (parserParse 5 (newParser slotsCommand ["--x".data]) [] true).parsedList =
      flagResolutionCount [] :=
  ⟨verbatim_switch_amended.1 "--foo".data [],
    verbatim_switch_amended.2.1 5 (newParser slotsCommand ["--x".data]) [] rfl⟩

/-- Witness for claim C8 at the concrete flag int with operand 42. -/
theorem joined_and_separate_long_flag_agree_witness :
    Command.Parse (namedValueCommand ('i' :: "nt".data) ⟨.vInt, false, []⟩)
        [('-' :: '-' :: 'i' :: "nt".data) ++ '=' :: "42".data] [(1, .stInt 0)] =
      Command.Parse (namedValueCommand ('i' :: "nt".data) ⟨.vInt, false, []⟩)
        ['-' :: '-' :: 'i' :: "nt".data, "42".data] [(1, .stInt 0)] ∧
    (Command.Parse (namedValueCommand ('i' :: "nt".data) ⟨.vInt, false, []⟩)
        [('-' :: '-' :: 'i' :: "nt".data) ++ '=' :: "42".data] [(1, .stInt 0)]).map
        (fun r => r.parsed.map Entity.summary) =
      some [(1, '-' :: '-' :: 'i' :: "nt".data, "42".data)] :=
  joined_and_separate_long_flag_agree 'i' "nt".data "42".data ⟨.vInt, false, []⟩
    [(1, .stInt 0)] (by decide) (by decide) (by decide)

/-- All positional arguments declared anywhere in a forest of commands. -/
def subArgsList : List Command → List Arg
  | [] => []
  | .mk _ _ _ _ cs _ as_ :: rest => as_ ++ (subArgsList cs ++ subArgsList rest)

/-- The positional arguments a parser state can still resolve: its
pending queue and the declarations of every command reachable through
its subcommand table. -/
def reachableArgs (p : Parser) : List Arg :=
  p.args ++ subArgsList (p.commands.map (fun kv => kv.2))

theorem mem_subArgsList (cs : List Command) (c : Command) (hc : c ∈ cs) (a : Arg)
    (ha : a ∈ c.args ∨ a ∈ subArgsList c.commands) : a ∈ subArgsList cs := by
  induction cs with
  | nil => cases hc
  | cons d rest ih =>
    cases d with
    | mk i nm pre act cs2 fs as2 =>
      rcases List.mem_cons.mp hc with h | h
      · subst h
        simp only [subArgsList, Command.args, Command.commands] at ha ⊢
        simp only [List.mem_append]
        tauto
      · simp only [subArgsList, List.mem_append]
        have := ih h
        tauto

set_option synthInstance.maxHeartbeats 400000 in
theorem mem_of_mapFind {α : Type} (m : List (Str × α)) (k : Str) (x : α)
    (h : mapFind m k = some x) : x ∈ m.map (fun kv => kv.2) := by
  induction m with
  | nil => exact Option.noConfusion h
  | cons kv rest ih =>
    obtain ⟨k1, v1⟩ := kv
    have hm : mapFind ((k1, v1) :: rest) k = if k1 = k then some v1 else mapFind rest k := rfl
    by_cases hk : k1 = k
    · rw [hm, if_pos hk, Option.some_inj] at h
      simp [h]
    · rw [hm, if_neg hk] at h
      simp [ih h]

theorem mem_commandsTable (cs : List Command) :
    ∀ (init : List (Str × Command)) (x : Command),
      x ∈ (cs.foldl (fun m c => (c.name, c) :: m) init).map (fun kv => kv.2) →
      x ∈ cs ∨ x ∈ init.map (fun kv => kv.2) := by
  induction cs with
  | nil =>
    intro init x h
    exact Or.inr h
  | cons c rest ih =>
    intro init x h
    rcases ih ((c.name, c) :: init) x h with h2 | h2
    · exact Or.inl (List.mem_cons_of_mem _ h2)
    · simp only [List.map_cons, List.mem_cons] at h2
      rcases h2 with h3 | h3
      · exact Or.inl (by simp [h3])
      · exact Or.inr h3

/-- parseFlagValue touches only the tokenizer of the parser state. -/
theorem parseFlagValue_state (p : Parser) (flag : Flag) (t : Token) (v : Str) (p2 : Parser)
    (h : parseFlagValue p flag t = .ok (v, p2)) :
    p2.commands = p.commands ∧ p2.args = p.args ∧ p2.flags = p.flags ∧
      p2.shortFlags = p.shortFlags ∧ p2.contextPath = p.contextPath := by
  unfold parseFlagValue parseFlagValueRest at h
  repeat' split at h
  all_goals
    first
    | exact Except.noConfusion h
    | (rw [Except.ok.injEq, Prod.mk.injEq] at h
       obtain ⟨h1, h2⟩ := h
       subst h2
       exact ⟨rfl, rfl, rfl, rfl, rfl⟩)

theorem parserParse_step_long_err (fuel : Nat) (p : Parser) (parsed : List Entity)
    (verbatim : Bool) (w : Str) (tkz : Tokenizer) (flag : Flag) (e : GErr)
    (htok : p.tok.Next verbatim = (⟨.tLong, w⟩, tkz))
    (hf : mapFind p.flags w = some flag)
    (hv : parseFlagValue { p with tok := tkz } flag ⟨.tLong, w⟩ = .error e) :
    parserParse (fuel + 1) p parsed verbatim = .err e parsed { p with tok := tkz } := by
  simp only [parserParse, htok, hf, hv]

theorem parserParse_step_short_found (fuel : Nat) (p : Parser) (parsed : List Entity)
    (verbatim : Bool) (w : Str) (tkz : Tokenizer) (flag : Flag) (value : Str) (p2 : Parser)
    (htok : p.tok.Next verbatim = (⟨.tShort, w⟩, tkz))
    (hf : mapFind p.shortFlags w = some flag)
    (hv : parseFlagValue { p with tok := tkz } flag ⟨.tShort, w⟩ = .ok (value, p2)) :
    parserParse (fuel + 1) p parsed verbatim =
      parserParse fuel p2 (parsed ++ [⟨.flagRef flag, '-' :: w, value⟩]) verbatim := by
  simp only [parserParse, htok, hf, hv, Token.str]

theorem parserParse_step_short_unknown (fuel : Nat) (p : Parser) (parsed : List Entity)
    (verbatim : Bool) (w : Str) (tkz : Tokenizer)
    (htok : p.tok.Next verbatim = (⟨.tShort, w⟩, tkz))
    (hf : mapFind p.shortFlags w = none) :
    parserParse (fuel + 1) p parsed verbatim =
      .err (.unknownFlag w) parsed { p with tok := tkz } := by
  simp only [parserParse, htok, hf]

theorem parserParse_step_short_err (fuel : Nat) (p : Parser) (parsed : List Entity)
    (verbatim : Bool) (w : Str) (tkz : Tokenizer) (flag : Flag) (e : GErr)
    (htok : p.tok.Next verbatim = (⟨.tShort, w⟩, tkz))
    (hf : mapFind p.shortFlags w = some flag)
    (hv : parseFlagValue { p with tok := tkz } flag ⟨.tShort, w⟩ = .error e) :
    parserParse (fuel + 1) p parsed verbatim = .err e parsed { p with tok := tkz } := by
  simp only [parserParse, htok, hf, hv]

theorem parserParse_step_remainder (fuel : Nat) (p : Parser) (parsed : List Entity)
    (verbatim : Bool) (w : Str) (tkz : Tokenizer)
    (htok : p.tok.Next verbatim = (⟨.tRemainder, w⟩, tkz)) :
    parserParse (fuel + 1) p parsed verbatim =
      parserParse fuel { p with tok := tkz } parsed verbatim := by
  simp only [parserParse, htok]

theorem subArgsList_inv (a : Arg) : ∀ (cs : List Command), a ∈ subArgsList cs →
    ∃ c, c ∈ cs ∧ (a ∈ c.args ∨ a ∈ subArgsList c.commands) := by
  intro cs
  induction cs with
  | nil => intro h; exact absurd h (by simp [subArgsList])
  | cons d rest ih =>
    cases d with
    | mk i nm pre act cs2 fs as2 =>
      intro h
      simp only [subArgsList, List.mem_append] at h
      rcases h with h | h | h
      · exact ⟨.mk i nm pre act cs2 fs as2, by simp, Or.inl h⟩
      · exact ⟨.mk i nm pre act cs2 fs as2, by simp, Or.inr h⟩
      · obtain ⟨c, hc, hm⟩ := ih h
        exact ⟨c, List.mem_cons_of_mem _ hc, hm⟩

/-- Every positional resolution the loop records beyond its initial list
is drawn from the current reachable arguments: the pending queue or the
declarations of a command reachable through subcommand switches. -/
theorem resolvedArgs_reachable (fuel : Nat) :
    ∀ (p : Parser) (parsed : List Entity) (v : Bool) (e : Entity),
      e ∈ (parserParse fuel p parsed v).parsedList →
      e ∈ parsed ∨ ∀ a : Arg, e.option = .argRef a → a ∈ reachableArgs p := by
  induction fuel with
  | zero => intro p parsed v e he; exact Or.inl he
  | succ f ih =>
    intro p parsed v e he
    rcases hN : p.tok.Next v with ⟨token, tkz⟩
    rcases token with ⟨ty, w⟩
    cases ty
    case tEOF =>
      rw [parserParse_step_eof f p parsed v w tkz hN] at he
      exact Or.inl he
    case tVerbatim =>
      rw [parserParse_step_verbatim f p parsed v w tkz hN] at he
      rcases ih _ _ _ _ he with h | h
      · exact Or.inl h
      · exact Or.inr (fun a ha => h a ha)
    case tAssigned =>
      rw [parserParse_step_assigned f p parsed v w tkz hN] at he
      rcases ih _ _ _ _ he with h | h
      · exact Or.inl h
      · exact Or.inr (fun a ha => h a ha)
    case tRemainder =>
      rw [parserParse_step_remainder f p parsed v w tkz hN] at he
      rcases ih _ _ _ _ he with h | h
      · exact Or.inl h
      · exact Or.inr (fun a ha => h a ha)
    case tLong =>
      rcases hf : mapFind p.flags w with _ | flag
      · rw [parserParse_step_long_unknown f p parsed v w tkz hN hf] at he
        exact Or.inl he
      · rcases hpv : parseFlagValue { p with tok := tkz } flag ⟨.tLong, w⟩ with ⟨e2⟩ | ⟨value, p2⟩
        · rw [parserParse_step_long_err f p parsed v w tkz flag e2 hN hf hpv] at he
          exact Or.inl he
        · rw [parserParse_step_long_found f p parsed v w tkz flag value p2 hN hf hpv] at he
          rcases ih _ _ _ _ he with h | h
          · rcases List.mem_append.mp h with h2 | h2
            · exact Or.inl h2
            · right
              intro a ha
              rw [List.mem_singleton] at h2
              subst h2
              exact absurd ha (by simp)
          · right
            intro a ha
            have hst := parseFlagValue_state _ _ _ _ _ hpv
            have h3 := h a ha
            unfold reachableArgs at h3 ⊢
            rw [hst.1, hst.2.1] at h3
            exact h3
    case tShort =>
      rcases hf : mapFind p.shortFlags w with _ | flag
      · rw [parserParse_step_short_unknown f p parsed v w tkz hN hf] at he
        exact Or.inl he
      · rcases hpv : parseFlagValue { p with tok := tkz } flag ⟨.tShort, w⟩ with ⟨e2⟩ | ⟨value, p2⟩
        · rw [parserParse_step_short_err f p parsed v w tkz flag e2 hN hf hpv] at he
          exact Or.inl he
        · rw [parserParse_step_short_found f p parsed v w tkz flag value p2 hN hf hpv] at he
          rcases ih _ _ _ _ he with h | h
          · rcases List.mem_append.mp h with h2 | h2
            · exact Or.inl h2
            · right
              intro a ha
              rw [List.mem_singleton] at h2
              subst h2
              exact absurd ha (by simp)
          · right
            intro a ha
            have hst := parseFlagValue_state _ _ _ _ _ hpv
            have h3 := h a ha
            unfold reachableArgs at h3 ⊢
            rw [hst.1, hst.2.1] at h3
            exact h3
    case tValue =>
      rcases hcs : p.commands with _ | ⟨k0, ks⟩
      · rcases has : p.args with _ | ⟨arg, restA⟩
        · rw [parserParse_step_value_unexpected f p parsed v w tkz hN hcs has] at he
          exact Or.inl he
        · rw [parserParse_step_value_arg f p parsed v w tkz arg restA hN hcs has] at he
          rcases ih _ _ _ _ he with h | h
          · rcases List.mem_append.mp h with h2 | h2
            · exact Or.inl h2
            · right
              intro a ha
              rw [List.mem_singleton] at h2
              subst h2
              simp only [EntityRef.argRef.injEq] at ha
              subst ha
              unfold reachableArgs
              rw [has]
              simp
          · right
            intro a ha
            have h3 := h a ha
            unfold reachableArgs at h3 ⊢
            cases hagg : IsAggregate arg.value
            · rw [hagg] at h3
              simp only [Bool.false_eq_true, if_false] at h3
              rcases List.mem_append.mp h3 with h4 | h4
              · exact List.mem_append.mpr (Or.inl (by rw [has]; exact List.mem_cons_of_mem _ h4))
              · exact List.mem_append.mpr (Or.inr h4)
            · rw [hagg] at h3
              simp only [if_true] at h3
              exact h3
      · rcases hfind : mapFind p.commands w with _ | child
        · rw [parserParse_step_value_unknown f p parsed v w tkz (by simp [hcs]) hN hfind] at he
          exact Or.inl he
        · rw [parserParse_step_value_switch f p parsed v w tkz child hN (by simp [hcs]) hfind] at he
          have hchild : child ∈ p.commands.map (fun kv => kv.2) :=
            mem_of_mapFind _ _ _ hfind
          rcases ih _ _ _ _ he with h | h
          · rcases List.mem_append.mp h with h2 | h2
            · exact Or.inl h2
            · right
              intro a ha
              rw [List.mem_singleton] at h2
              subst h2
              exact absurd ha (by simp)
          · right
            intro a ha
            have h3 := h a ha
            unfold reachableArgs at h3 ⊢
            rcases List.mem_append.mp h3 with h4 | h4
            · refine List.mem_append.mpr (Or.inr ?_)
              exact mem_subArgsList _ child hchild a (Or.inl h4)
            · obtain ⟨c, hc, hm⟩ := subArgsList_inv a _ h4
              rcases mem_commandsTable child.commands [] c hc with h5 | h5
              · refine List.mem_append.mpr (Or.inr ?_)
                refine mem_subArgsList _ child hchild a (Or.inr ?_)
                exact mem_subArgsList _ c h5 a hm
              · exact absurd h5 (by simp)

/-- Claim C4: switching context replaces the pending positional queue
with exactly the child's own declared args, and a slot dropped that way
can never match again.  Part one is the setContext replacement equation;
part two is the loop invariant that every recorded positional resolution
comes from the state's reachable arguments (the pending queue or a
declaration below a reachable subcommand); part three is the consequence
that after a switch, an argument outside the child's queue and subtree —
in particular an undischarged slot of the parent — is never resolved. -/
theorem context_switch_replaces_positional_queue :
    (∀ (p : Parser) (c : Command), (setContext p c).args = c.args) ∧
    (∀ (fuel : Nat) (p : Parser) (parsed : List Entity) (v : Bool) (e : Entity),
      e ∈ (parserParse fuel p parsed v).parsedList →
      e ∈ parsed ∨ ∀ a : Arg, e.option = .argRef a → a ∈ reachableArgs p) ∧
    (∀ (fuel : Nat) (p : Parser) (parsed : List Entity) (v : Bool) (child : Command)
      (a : Arg), a ∉ reachableArgs (setContext p child) →
      ∀ e : Entity, e ∈ (parserParse fuel (setContext p child) parsed v).parsedList →
        e ∉ parsed → e.option ≠ .argRef a) := by
  refine ⟨fun p c => rfl, resolvedArgs_reachable, ?_⟩
  intro fuel p parsed v child a ha e hmem hnew hopt
  rcases resolvedArgs_reachable fuel _ parsed v e hmem with h | h
  · exact hnew h
  · exact ha (h a hopt)

/-- Witness for claim C4: in the test tree, after entering sub1 the
queue is exactly sub1's args, and a slot never declared below sub1 (a
ghost arg) is matched by no resolution of a full run through sub1's
leaf child. -/
theorem context_switch_replaces_positional_queue_witness :
    (setContext (newParser treeCommand ["x".data]) sub1Command).args = sub1Command.args ∧
    Entity.option
        ⟨.argRef { id := 31, name := "arg".data, value := some ⟨.vString, false, []⟩ },
          "arg".data, "x".data⟩ ≠
      .argRef { id := 99, name := "ghost".data } := by
  constructor
  · exact context_switch_replaces_positional_queue.1 (newParser treeCommand ["x".data])
      sub1Command
  · refine context_switch_replaces_positional_queue.2.2 5
      { tok := ⟨["sub-sub".data, "x".data], none⟩, contextPath := [], commands := [],
        flags := [], shortFlags := [], args := [] }
      [] false sub1Command { id := 99, name := "ghost".data } ?_ _ ?_ ?_
    · simp [reachableArgs, setContext, subArgsList, sub1Command, subSubCommand,
        Command.args, Command.commands, Command.name]
    · rw [show (parserParse 5
          (setContext
            { tok := ⟨["sub-sub".data, "x".data], none⟩, contextPath := [], commands := [],
              flags := [], shortFlags := [], args := [] } sub1Command)
          [] false).parsedList =
        [⟨.commandRef subSubCommand, "sub-sub".data, "sub-sub".data⟩,
          ⟨.argRef { id := 31, name := "arg".data, value := some ⟨.vString, false, []⟩ },
            "arg".data, "x".data⟩] from rfl]
      exact List.Mem.tail _ (List.Mem.head _)
    · simp

/-- When every pre-action among the parsed entities succeeds, all of
them are invoked, in encounter order, each receiving the final context,
and no error results. -/
theorem invokePreActions_all_ok (ctx : Command) :
    ∀ parsed : List Entity,
      (∀ x ∈ parsed, entityPre x.option = none ∨ entityPre x.option = some none) →
      invokePreActions ctx parsed =
        (none, (parsed.filter (fun x => (entityPre x.option).isSome)).map
          (fun x => (entityId x.option, ctx.id))) := by
  intro parsed
  induction parsed with
  | nil => intro _; rfl
  | cons x rest ih =>
    intro h
    have hx := h x (List.mem_cons_self x rest)
    have hrest : ∀ y ∈ rest, entityPre y.option = none ∨ entityPre y.option = some none :=
      fun y hy => h y (List.mem_cons_of_mem _ hy)
    rcases hx with hx | hx
    · simp only [invokePreActions, hx, List.filter_cons]
      rw [ih hrest]
      simp [hx]
    · simp only [invokePreActions, hx, List.filter_cons]
      rw [ih hrest]
      simp [hx]

/-- When a pre-action fails, the failing closure's error is returned,
the pre-actions before it have been invoked in encounter order with the
final context, and those after it are not reached. -/
theorem invokePreActions_first_err (ctx : Command) (e : Entity) (m : Str)
    (post : List Entity) (he : entityPre e.option = some (some m)) :
    ∀ pre : List Entity,
      (∀ x ∈ pre, entityPre x.option = none ∨ entityPre x.option = some none) →
      invokePreActions ctx (pre ++ e :: post) =
        (some m, (pre.filter (fun x => (entityPre x.option).isSome)).map
            (fun x => (entityId x.option, ctx.id)) ++ [(entityId e.option, ctx.id)]) := by
  intro pre
  induction pre with
  | nil =>
    intro _
    simp only [List.nil_append, invokePreActions, he]
    simp
  | cons x rest ih =>
    intro h
    have hx := h x (List.mem_cons_self x rest)
    have hrest : ∀ y ∈ rest, entityPre y.option = none ∨ entityPre y.option = some none :=
      fun y hy => h y (List.mem_cons_of_mem _ hy)
    rcases hx with hx | hx
    · simp only [List.cons_append, invokePreActions, hx, List.filter_cons, List.append_eq]
      rw [ih hrest]
      simp [hx]
    · simp only [List.cons_append, invokePreActions, hx, List.filter_cons, List.append_eq]
      rw [ih hrest]
      simp [hx]

/-- Command.Parse invokes the pre-actions of everything resolved before
a parse error, and reports a pre-action error in place of the parse
error. -/
theorem preActions_survive_parse_error (c : Command) (argv : List Str) (st : Store)
    (e : GErr) (parsed : List Entity) (pf : Parser)
    (hres : resolvePhase c argv = .err e parsed pf) :
    (Command.Parse c argv st).map (fun r => (r.preInvocations, r.err)) =
      some ((invokePreActions (currentContext pf c) parsed).2,
        match (invokePreActions (currentContext pf c) parsed).1 with
        | some m => some (.actionErr m)
        | none => some e) := by
  unfold Command.Parse
  rw [hres]
  unfold finishParse
  rcases hpre : invokePreActions (currentContext pf c) parsed with ⟨res, trace⟩
  cases res <;> simp [hpre]

/-- A boolean flag whose pre-action succeeds and one whose pre-action
fails with the message boom, used to exercise pre-action dispatch. -/
def quietPreFlag : Flag :=
  { id := 51, name := "p1".data, short := none, required := false,
    preAction := some none, value := some ⟨.vBool, false, []⟩ }

def failingPreFlag : Flag :=
  { id := 52, name := "boom".data, short := none, required := false,
    preAction := some (some "boom".data), value := some ⟨.vBool, false, []⟩ }

def preCommand : Command := .mk 0 "root".data none none [] [quietPreFlag, failingPreFlag] []

/-- Claim C6: pre-actions of the entities resolved before the point of a
parse error run in encounter order with the final context — all of them
when none fails, in which case the pending parse error is returned — and
the first failing pre-action's error is the error returned to the
caller, superseding the pending parse error.  Parts one and two
characterize the invocation order and the first-error cut; part three
wires them into Command.Parse on a failed resolution. -/
theorem preactions_run_in_order_and_supersede :
    (∀ (ctx : Command) (parsed : List Entity),
      (∀ x ∈ parsed, entityPre x.option = none ∨ entityPre x.option = some none) →
      invokePreActions ctx parsed =
        (none, (parsed.filter (fun x => (entityPre x.option).isSome)).map
          (fun x => (entityId x.option, ctx.id)))) ∧
    (∀ (ctx : Command) (e : Entity) (m : Str) (post pre : List Entity),
      entityPre e.option = some (some m) →
      (∀ x ∈ pre, entityPre x.option = none ∨ entityPre x.option = some none) →
      invokePreActions ctx (pre ++ e :: post) =
        (some m, (pre.filter (fun x => (entityPre x.option).isSome)).map
            (fun x => (entityId x.option, ctx.id)) ++ [(entityId e.option, ctx.id)])) ∧
    (∀ (c : Command) (argv : List Str) (st : Store) (e : GErr) (parsed : List Entity)
      (pf : Parser), resolvePhase c argv = .err e parsed pf →
      (Command.Parse c argv st).map (fun r => (r.preInvocations, r.err)) =
        some ((invokePreActions (currentContext pf c) parsed).2,
          match (invokePreActions (currentContext pf c) parsed).1 with
          | some m => some (.actionErr m)
          | none => some e)) :=
  ⟨invokePreActions_all_ok,
    fun ctx e m post pre he hpre => invokePreActions_first_err ctx e m post he pre hpre,
    fun c argv st e parsed pf hres => preActions_survive_parse_error c argv st e parsed pf hres⟩

/-- Witness for claim C6: on a run resolving a quiet pre-action flag,
then a failing one, then hitting an unknown flag, both pre-actions fire
in order with the final context and the boom error supersedes the
unknown-flag parse error. -/
theorem preactions_run_in_order_and_supersede_witness :
    invokePreActions preCommand
        [⟨.flagRef quietPreFlag, '-' :: '-' :: "p1".data, "true".data⟩] =
      (none, [(51, 0)]) ∧
    invokePreActions preCommand
        [⟨.flagRef quietPreFlag, '-' :: '-' :: "p1".data, "true".data⟩,
          ⟨.flagRef failingPreFlag, '-' :: '-' :: "boom".data, "true".data⟩] =
      (some "boom".data, [(51, 0), (52, 0)]) ∧
    (Command.Parse preCommand ["--p1".data, "--boom".data, "--nope".data] []).map
        (fun r => (r.preInvocations, r.err)) =
      some ([(51, 0), (52, 0)], some (.actionErr "boom".data)) := by
  refine ⟨?_, ?_, ?_⟩
  · exact (preactions_run_in_order_and_supersede.1 preCommand
      [⟨.flagRef quietPreFlag, '-' :: '-' :: "p1".data, "true".data⟩] (by decide)).trans rfl
  · exact (preactions_run_in_order_and_supersede.2.1 preCommand
      ⟨.flagRef failingPreFlag, '-' :: '-' :: "boom".data, "true".data⟩ "boom".data []
      [⟨.flagRef quietPreFlag, '-' :: '-' :: "p1".data, "true".data⟩]
      (by decide) (by decide)).trans rfl
  · exact (preactions_run_in_order_and_supersede.2.2 preCommand
      ["--p1".data, "--boom".data, "--nope".data] [] (.unknownFlag "nope".data)
      [⟨.flagRef quietPreFlag, '-' :: '-' :: "p1".data, "true".data⟩,
        ⟨.flagRef failingPreFlag, '-' :: '-' :: "boom".data, "true".data⟩]
      { tok := ⟨[], none⟩, contextPath := [preCommand], commands := [],
        flags := [("boom".data, failingPreFlag), ("p1".data, quietPreFlag)],
        shortFlags := [], args := [] }
      rfl).trans rfl

/-- Flags and positional arguments as the specification's walk sees
them: the declarations of one level, flags first, then args. -/
inductive FlagOrArg where
  | flagEntry (f : Flag)
  | argEntry (a : Arg)

/-- The declarations of the ancestor chain flattened from root to leaf,
every flag and then every positional argument at each level. -/
def declaredEntries (path : List Command) : List FlagOrArg :=
  path.flatMap (fun c => c.flags.map .flagEntry ++ c.args.map .argEntry)

/-- One entity of the specification's validation walk (claim C7, spec
section 4.5): an entity that received a Set call during resolution is
skipped — its defaults are never applied; an unseen required entity
fails the phase naming it; otherwise its defaults, if any, are applied
in order, the first failure aborting. -/
def specApplyOne (seen : List Nat) (store : Store) : FlagOrArg → Option GErr × Store
  | .flagEntry f =>
    if f.id ∈ seen then (none, store)
    else if f.required then (some (.missingRequiredFlag f.name), store)
    else
      match applyDefaultStore f.value f.id store with
      | (some e, store') => (some (.valueSetErr e), store')
      | (none, store') => (none, store')
  | .argEntry a =>
    if a.id ∈ seen then (none, store)
    else if a.required then (some (.missingRequiredArg a.name), store)
    else
      match applyDefaultStore a.value a.id store with
      | (some e, store') => (some (.valueSetErr e), store')
      | (none, store') => (none, store')

/-- The specification's walk over the flattened declarations, stopping
at the first failure. -/
def specWalk (seen : List Nat) (store : Store) : List FlagOrArg → Option GErr × Store
  | [] => (none, store)
  | x :: rest =>
    match specApplyOne seen store x with
    | (some e, store') => (some e, store')
    | (none, store') => specWalk seen store' rest

/-- The value-application phase as worded by the specification: apply
the resolutions in encounter order collecting the seen set (this first
pass is shared with the implementation translation), then run the
validation walk over the chain flattened from root to leaf. -/
def setValuesSpec (path : List Command) (parsed : List Entity) (store : Store) :
    Option GErr × Store :=
  match setValuesPass1 parsed store [] with
  | (some e, store', _) => (some e, store')
  | (none, store', seen) => specWalk seen store' (declaredEntries path)

theorem specWalk_append (seen : List Nat) :
    ∀ (l1 l2 : List FlagOrArg) (store : Store),
      specWalk seen store (l1 ++ l2) =
        match specWalk seen store l1 with
        | (some e, store') => (some e, store')
        | (none, store') => specWalk seen store' l2 := by
  intro l1
  induction l1 with
  | nil => intro l2 store; rfl
  | cons x rest ih =>
    intro l2 store
    simp only [List.cons_append, specWalk]
    rcases specApplyOne seen store x with ⟨e, store'⟩
    cases e
    · simp [ih]
    · simp

theorem checkFlags_spec (seen : List Nat) :
    ∀ (fs : List Flag) (store : Store),
      checkFlags seen store fs = specWalk seen store (fs.map .flagEntry) := by
  intro fs
  induction fs with
  | nil => intro store; rfl
  | cons f rest ih =>
    intro store
    simp only [List.map_cons, checkFlags, specWalk, specApplyOne]
    by_cases hseen : f.id ∈ seen
    · simp [hseen, ih]
    · simp only [hseen, if_false]
      by_cases hreq : f.required
      · simp [hreq]
      · simp only [hreq, if_false]
        rcases applyDefaultStore f.value f.id store with ⟨e, store'⟩
        cases e
        · simp [ih]
        · simp

theorem checkArgs_spec (seen : List Nat) :
    ∀ (as_ : List Arg) (store : Store),
      checkArgs seen store as_ = specWalk seen store (as_.map .argEntry) := by
  intro as_
  induction as_ with
  | nil => intro store; rfl
  | cons a rest ih =>
    intro store
    simp only [List.map_cons, checkArgs, specWalk, specApplyOne]
    by_cases hseen : a.id ∈ seen
    · simp [hseen, ih]
    · simp only [hseen, if_false]
      by_cases hreq : a.required
      · simp [hreq]
      · simp only [hreq, if_false]
        rcases applyDefaultStore a.value a.id store with ⟨e, store'⟩
        cases e
        · simp [ih]
        · simp

theorem setValuesPass2_spec (seen : List Nat) :
    ∀ (path : List Command) (store : Store),
      setValuesPass2 seen store path = specWalk seen store (declaredEntries path) := by
  intro path
  induction path with
  | nil => intro store; rfl
  | cons c rest ih =>
    intro store
    have hflat : declaredEntries (c :: rest) =
        (c.flags.map .flagEntry ++ c.args.map .argEntry) ++ declaredEntries rest := by
      simp [declaredEntries]
    rw [hflat, specWalk_append, specWalk_append]
    simp only [setValuesPass2, checkFlags_spec, checkArgs_spec, ih]
    rcases h1 : specWalk seen store (List.map FlagOrArg.flagEntry c.flags) with ⟨e1, store1⟩
    cases e1
    · rcases h2 : specWalk seen store1 (List.map FlagOrArg.argEntry c.args) with ⟨e2, store2⟩
      cases e2 <;> rfl
    · rfl

/-- Claim C7: the implementation's value-application phase coincides,
on every ancestor chain, resolution list and store, with the phase as
the specification words it — resolutions applied in encounter order
collecting the seen set, then the root-to-leaf walk over every flag and
positional argument of each level, skipping seen entities (so defaults
are never applied to an entity set during resolution), failing on the
first unseen required entity naming it, and otherwise applying its
defaults in order with the first failing default aborting the phase. -/
theorem setValues_matches_spec (path : List Command) (parsed : List Entity)
    (store : Store) :
    setValues path parsed store = setValuesSpec path parsed store := by
  unfold setValues setValuesSpec
  rcases setValuesPass1 parsed store [] with ⟨e, store', seen⟩
  cases e
  · simp [setValuesPass2_spec]
  · simp

end Gargle
